import Mathlib

/-!
Verification development for the swagger-to-typescript-api generator.

The development shallowly embeds the pipeline of `src/parse.ts`,
`src/index.ts` and `src/render.ts`:

* a heap model of mutable JavaScript object graphs, on which the
  cycle-breaking walk `resolveCircular` operates (stage 1 of the pipeline);
* the operation projection of `Parser.processOperationObject` /
  `processParametersObject` / `resolveSimpleRef` (stage 2);
* the shape preprocessing and code synthesis of `preprocessOperation` /
  `renderOperation` / `processSchemaObject`, and the primitive-format
  mapping of `renderTypeConversion` (stages 3 and 4).

JavaScript objects are addressed by numeric identity (`JVal.vobj`), since
the walk of `resolveCircular` keys its visited set on object identity
(a `WeakSet`).  Mutation is explicit state passing on `Heap`.  The
recursive walk carries fuel and returns `none` when the fuel runs out, so
a `some` result certifies that the modelled JavaScript recursion
actually completed.
-/

/-- A JavaScript value: `null`, a primitive, or a reference to a heap
object.  Arrays are modelled as objects with index-named fields, which is
how `lodash.forEach` and `typeof` treat them in the walked code. -/
inductive JVal where
  | vnull : JVal
  | vbool : Bool → JVal
  | vnum : Int → JVal
  | vstr : String → JVal
  | vobj : Nat → JVal
deriving DecidableEq, Repr

/-- The own enumerable fields of one JavaScript object, in key order. -/
abbrev JFields := List (String × JVal)

/-- A heap of JavaScript objects: an association of object identities to
field lists, plus the next fresh identity. -/
structure Heap where
  objs : List (Nat × JFields)
  next : Nat
deriving DecidableEq, Repr

/-- Field list of an object; a dangling identity has no fields. -/
def Heap.fields (h : Heap) (id : Nat) : JFields :=
  (h.objs.lookup id).getD []

/-- Read one field (`obj[key]`). -/
def Heap.getField (h : Heap) (id : Nat) (k : String) : Option JVal :=
  (h.fields id).lookup k

/-- The key snapshot `Object.keys(obj)` that `lodash.forEach` iterates. -/
def Heap.keysOf (h : Heap) (id : Nat) : List String :=
  (h.fields id).map Prod.fst

/-- Overwrite the value of an existing key in a field list. -/
def setFieldIn (fs : JFields) (k : String) (v : JVal) : JFields :=
  fs.map fun kv => if kv.1 = k then (k, v) else kv

/-- The mutation `obj[key] = v`.  The walk only assigns to keys it is
currently iterating, so the key always exists and is overwritten. -/
def Heap.setField (h : Heap) (id : Nat) (k : String) (v : JVal) : Heap :=
  { h with objs := h.objs.map fun o => if o.1 = id then (o.1, setFieldIn o.2 k v) else o }

/-- Allocate a fresh object with the given fields; returns its identity. -/
def Heap.alloc (h : Heap) (fs : JFields) : Heap × Nat :=
  ({ objs := h.objs ++ [(h.next, fs)], next := h.next + 1 }, h.next)

/-- The fields of the opaque recursive-marker leaf that `resolveCircular`
substitutes for a re-entered value: a single display-only `tsType`
annotation and no further structure. -/
def markerFields : JFields :=
  [("tsType", JVal.vstr "/** recursive */ any")]

/-- Allocate one fresh marker object per given property key: the heap
effect of `_.mapValues(value, () => ({ tsType: ... }))` in
`resolveCircular`. -/
def allocMarkers (h : Heap) (ks : List String) : Heap × JFields :=
  match ks with
  | [] => (h, [])
  | k :: ks =>
    let (h1, m) := h.alloc markerFields
    let (h2, fs) := allocMarkers h1 ks
    (h2, (k, JVal.vobj m) :: fs)

mutual

/-- `resolveCircular(obj, seen)` from `src/parse.ts`: the stage-1 walk
that breaks reference cycles.  `resolveCircular` dispatches on the
argument: for a non-object it does nothing (as `_.forEach` over a
primitive iterates nothing relevant), for an object it iterates the key
snapshot via `resolveCircularFields`. -/
def resolveCircular (fuel : Nat) (h : Heap) (v : JVal) (seen : List Nat) : Option Heap :=
  match fuel with
  | 0 => none
  | fuel + 1 =>
    match v with
    | JVal.vobj id => resolveCircularFields fuel h id (h.keysOf id) seen
    | _ => some h

/-- The body of the `_.forEach(obj, (value, key) => ...)` loop in
`resolveCircular`.  For each key, the current value is re-read from the
heap.  A non-null object value already in `seen` is handled by position:
under `items` it is replaced by a fresh marker leaf, under `properties`
the whole map is replaced by a map of fresh marker leaves; under any
other key the source callback merely evaluates a `return` of an empty
object literal, whose return value `lodash.forEach` discards (it stops
iteration only on `false`), so nothing is written.  A value
not in `seen` is added to it, its children are each walked recursively
(`_.forEach(value, (val) => resolveCircular(val, seen))`, embedded as
`resolveCircularKids`), and it is removed again afterwards. -/
def resolveCircularFields (fuel : Nat) (h : Heap) (id : Nat) (ks : List String)
    (seen : List Nat) : Option Heap :=
  match fuel with
  | 0 => none
  | fuel + 1 =>
    match ks with
    | [] => some h
    | k :: ks =>
      match h.getField id k with
      | some (JVal.vobj vid) =>
        if vid ∈ seen then
          if k = "items" then
            let (h1, m) := h.alloc markerFields
            resolveCircularFields fuel (h1.setField id k (JVal.vobj m)) id ks seen
          else if k = "properties" then
            let (h1, fs) := allocMarkers h (h.keysOf vid)
            let (h2, c) := h1.alloc fs
            resolveCircularFields fuel (h2.setField id k (JVal.vobj c)) id ks seen
          else
            resolveCircularFields fuel h id ks seen
        else
          match resolveCircularKids fuel h vid (h.keysOf vid) (vid :: seen) with
          | none => none
          | some h2 => resolveCircularFields fuel h2 id ks seen
      | _ => resolveCircularFields fuel h id ks seen

/-- The inner `_.forEach(value, (val) => resolveCircular(val, seen))` of
`resolveCircular`: walk each child value of the just-pushed object.  The
children themselves are not checked against `seen` here — the recursive
`resolveCircular` call checks their children instead. -/
def resolveCircularKids (fuel : Nat) (h : Heap) (vid : Nat) (ks : List String)
    (seen : List Nat) : Option Heap :=
  match fuel with
  | 0 => none
  | fuel + 1 =>
    match ks with
    | [] => some h
    | k :: ks =>
      match h.getField vid k with
      | some v =>
        match resolveCircular fuel h v seen with
        | none => none
        | some h2 => resolveCircularKids fuel h2 vid ks seen
      | none => resolveCircularKids fuel h vid ks seen

end

/-- Object-valued successors of a heap object. -/
def objSuccs (h : Heap) (id : Nat) : List Nat :=
  (h.fields id).filterMap fun kv =>
    match kv.2 with
    | JVal.vobj j => some j
    | _ => none

/-- One step of reachability closure. -/
def reachStep (h : Heap) (s : List Nat) : List Nat :=
  (s ++ s.flatMap (objSuccs h)).dedup

/-- All object identities reachable from `root` by direct traversal. -/
def reachSet (h : Heap) (root : Nat) : List Nat :=
  Nat.iterate (reachStep h) (h.objs.length + 1) [root]

/-- Whether some cycle is reachable from `root` by direct traversal:
a reachable object that can reach itself again through at least one
edge. -/
def hasReachableCycle (h : Heap) (root : Nat) : Bool :=
  (reachSet h root).any fun i =>
    (objSuccs h i).any fun j => i ∈ reachSet h j

mutual

/-- Modelled from the spec: section 4.1 describes the cycle-breaking
algorithm as a depth-first walk in which, for each object-valued field,
a value already on the stack is replaced according to its key, and
otherwise the value is pushed onto the stack, **every child is recursed
into**, and the value is popped before returning — i.e. every visited
object is on the stack while its children are processed.  This idealized
walk is stated here only to compare the code against the claimed stack
discipline; the replacement rules are the same as in the code. -/
def specResolveCircularWalk (fuel : Nat) (h : Heap) (id : Nat) (ks : List String)
    (seen : List Nat) : Option Heap :=
  match fuel with
  | 0 => none
  | fuel + 1 =>
    match ks with
    | [] => some h
    | k :: ks =>
      match h.getField id k with
      | some (JVal.vobj vid) =>
        if vid ∈ seen then
          if k = "items" then
            let (h1, m) := h.alloc markerFields
            specResolveCircularWalk fuel (h1.setField id k (JVal.vobj m)) id ks seen
          else if k = "properties" then
            let (h1, fs) := allocMarkers h (h.keysOf vid)
            let (h2, c) := h1.alloc fs
            specResolveCircularWalk fuel (h2.setField id k (JVal.vobj c)) id ks seen
          else
            specResolveCircularWalk fuel h id ks seen
        else
          match specResolveCircularWalk fuel h vid (h.keysOf vid) (vid :: seen) with
          | none => none
          | some h2 => specResolveCircularWalk fuel h2 id ks seen
      | _ => specResolveCircularWalk fuel h id ks seen

end

/-- Modelled from the spec: the idealized walk started at the document
root with an empty stack. -/
def specResolveCircular (fuel : Nat) (h : Heap) (root : Nat) : Option Heap :=
  specResolveCircularWalk fuel h root (h.keysOf root) []

/-- A document whose schema node 1 references itself under the key
`self` (neither `items` nor `properties`). -/
def heapSelfLoop : Heap :=
  { objs := [(0, [("x", JVal.vobj 1)]),
             (1, [("self", JVal.vobj 1), ("t", JVal.vstr "x")])],
    next := 2 }

/-- A document whose node 1 references itself under the key `schema`,
and carries a further field, to observe whether the walk collapses the
re-entered value to an empty object. -/
def heapSchemaLoop : Heap :=
  { objs := [(0, [("doc", JVal.vobj 1)]),
             (1, [("schema", JVal.vobj 1), ("note", JVal.vstr "keeps fields")])],
    next := 2 }

/-- A two-cycle through `items` keys sitting two levels below the root:
root 0 → 1 → 2, with 2.items = 3 and 3.items = 2. -/
def heapTwoCycle : Heap :=
  { objs := [(0, [("x", JVal.vobj 1)]),
             (1, [("k", JVal.vobj 2)]),
             (2, [("items", JVal.vobj 3)]),
             (3, [("items", JVal.vobj 2)])],
    next := 4 }

/-- A JSON-schema object as consumed by the generator: the fields the
pipeline reads (`type`, `format`, `title`, `description`, `properties`,
`required`, `items`); an absent field is `none`. -/
inductive SchemaObject where
  | mk (type : Option String) (format : Option String)
      (title : Option String) (description : Option String)
      (properties : Option (List (String × SchemaObject)))
      (required : Option (List String))
      (items : Option SchemaObject) : SchemaObject

/-- The `type` field of a schema. -/
def SchemaObject.type : SchemaObject → Option String
  | SchemaObject.mk t _ _ _ _ _ _ => t

/-- The `format` field of a schema. -/
def SchemaObject.format : SchemaObject → Option String
  | SchemaObject.mk _ f _ _ _ _ _ => f

/-- The `title` field of a schema. -/
def SchemaObject.title : SchemaObject → Option String
  | SchemaObject.mk _ _ t _ _ _ _ => t

/-- The `description` field of a schema. -/
def SchemaObject.description : SchemaObject → Option String
  | SchemaObject.mk _ _ _ d _ _ _ => d

/-- The `properties` field of a schema. -/
def SchemaObject.properties : SchemaObject → Option (List (String × SchemaObject))
  | SchemaObject.mk _ _ _ _ p _ _ => p

/-- The `required` field of a schema (a list of property names). -/
def SchemaObject.required : SchemaObject → Option (List String)
  | SchemaObject.mk _ _ _ _ _ r _ => r

/-- The `items` field of a schema. -/
def SchemaObject.items : SchemaObject → Option SchemaObject
  | SchemaObject.mk _ _ _ _ _ _ i => i

/-- An OpenAPI parameter object: `name`, `in` (held as `loc`, since `in`
is reserved in Lean), `required`, `schema`. -/
structure ParameterObject where
  name : String
  loc : String
  required : Bool
  schema : Option SchemaObject

/-- A media-type object: only its `schema` member is consumed. -/
structure MediaTypeObject where
  schema : Option SchemaObject

/-- A request-body object: its `content` map from media-type names to
media-type objects, in declaration order. -/
structure RequestBodyObject where
  content : Option (List (String × MediaTypeObject))

/-- A response object: its `content` map. -/
structure ResponseObject where
  content : Option (List (String × MediaTypeObject))

/-- A value that may instead be a `$ref` reference object. -/
inductive OrRef (α : Type) where
  | ref (r : String) : OrRef α
  | obj (o : α) : OrRef α

/-- A raw operation object, with the members the extractor consumes. -/
structure OperationObject where
  operationId : Option String
  summary : Option String
  description : Option String
  deprecated : Bool
  parameters : Option (List (OrRef ParameterObject))
  requestBody : Option (OrRef RequestBodyObject)
  responses : List (String × ResponseObject)

/-- `resolveSimpleRef` from the lazy-resolution `Parser` (part_000).  For
a non-reference the argument is returned.  For a reference the source
checks `refs.exists`, evaluates `refs.get` **discarding its result**, and
then unconditionally executes `return null as never`; so every reference
resolves to `null` (here `none`), whether or not it exists.  `refs` is
the set of resolvable reference pointers exposed by the external
resolver. -/
def resolveSimpleRef {α : Type} (refs : List String) : OrRef α → Option α
  | OrRef.ref r => if r ∈ refs then none else none
  | OrRef.obj o => some o

/-- Insert into a sorted list, before the first element that does not
have to precede the inserted one. -/
def stableInsert {α : Type} (le : α → α → Bool) (x : α) : List α → List α
  | [] => [x]
  | y :: ys => if le x y then x :: y :: ys else y :: stableInsert le x ys

/-- JavaScript stable `Array.prototype.sort`, modelled as insertion sort:
`a` stays before `b` exactly when the comparator result is non-positive,
i.e. when `le a b` holds, and ties keep their original relative order.
Any two stable sorts for a total transitive `le` agree, so this models
the engine sort. -/
def jsStableSort {α : Type} (le : α → α → Bool) : List α → List α
  | [] => []
  | x :: xs => stableInsert le x (jsStableSort le xs)

/-- The parameter sort of `processParametersObject`: the comparator
`(a, b) => a.in.localeCompare(b.in)` keeps `a` before `b` when its `in`
field is string-`≤` that of `b`. -/
def sortByInField (ps : List ParameterObject) : List ParameterObject :=
  jsStableSort (fun a b => a.loc ≤ b.loc) ps

/-- `processParametersObject` from the lazy-resolution `Parser`
(part_000): resolve each entry through `resolveSimpleRef`, drop the
falsy (null) results with `.filter(Boolean)`, sort by the `in` field,
and reshape (`\x7b...param, schema\x7d`, an identity on this model). -/
def processParametersObject (refs : List String)
    (parameters : Option (List (OrRef ParameterObject))) : Option (List ParameterObject) :=
  parameters.map fun ps => sortByInField (ps.filterMap (resolveSimpleRef refs))

/-- `processParametersObject` from the dereferencing `Parser`
(`src/parse.ts`): parameters are already dereferenced, so each entry is
cast and the list is sorted by the `in` field. -/
def processParametersObjectDeref
    (parameters : Option (List ParameterObject)) : Option (List ParameterObject) :=
  parameters.map fun ps => sortByInField ps

/-- The number the path-parameter sort comparator derives from a
parameter: `Number(param.schema?.required || 0)`.  `schema.required` is
a list of property names when present; `Number` of an empty array is 0,
of a one-element array is the element parsed as a number, and otherwise
`NaN`, which `Array.prototype.sort` treats as a comparator result of 0. -/
def requiredSortNum (s : Option SchemaObject) : Int :=
  match s with
  | none => 0
  | some sch =>
    match sch.required with
    | none => 0
    | some [] => 0
    | some [x] => (x.toInt?).getD 0
    | some _ => 0

/-- The path-parameter group of `processOperationObject`: filter on
`in === "path"`, then stable-sort with the comparator
`(a, b) => Number(b.schema?.required || 0) - Number(a.schema?.required || 0)`
(`a` stays before `b` when that difference is non-positive). -/
def pathParamsOf (parameters : List ParameterObject) : List ParameterObject :=
  jsStableSort (fun a b => requiredSortNum b.schema ≤ requiredSortNum a.schema)
    (parameters.filter fun el => el.loc = "path")

/-- The query-parameter group of `processOperationObject`. -/
def queryParamsOf (parameters : List ParameterObject) : List ParameterObject :=
  parameters.filter fun el => el.loc = "query"

/-- The media-object choice of `processOperationObject`:
`content["application/json"] || content["multipart/form-data"] || values(content)[0]`. -/
def pickMediaObject (bodyContent : List (String × MediaTypeObject)) : Option MediaTypeObject :=
  match bodyContent.lookup "application/json" with
  | some m => some m
  | none =>
    match bodyContent.lookup "multipart/form-data" with
    | some m => some m
    | none => (bodyContent.map Prod.snd).head?

/-- The request-body resolution of `processOperationObject` (part_000):
resolve the request body through `resolveSimpleRef`, pick the media
object, set `isMultipart` when a `multipart/form-data` entry exists and
return early; otherwise, when the chosen media schema has properties,
reclassify as multipart when some property is a binary string. -/
def requestBodyResolution (refs : List String)
    (requestBody : Option (OrRef RequestBodyObject)) : Option MediaTypeObject × Bool :=
  match (requestBody.bind (resolveSimpleRef refs)).bind RequestBodyObject.content with
  | none => (none, false)
  | some bodyContent =>
    let mediaObject := pickMediaObject bodyContent
    let isMultipart := (bodyContent.lookup "multipart/form-data").isSome
    if isMultipart then (mediaObject, true)
    else
      match mediaObject.bind MediaTypeObject.schema with
      | some schema =>
        match schema.properties with
        | some props =>
          (mediaObject, props.any fun p => p.2.type == some "string" && p.2.format == some "binary")
        | none => (mediaObject, false)
      | none => (mediaObject, false)

/-- The claim-side reading of the multipart rule: a `multipart/form-data`
content type is declared, or the chosen media object carries a schema
among whose properties some property has type `string` and format
`binary`. -/
def chosenSchemaHasBinaryProp (m : Option MediaTypeObject) : Bool :=
  match m.bind MediaTypeObject.schema with
  | some schema =>
    match schema.properties with
    | some props => props.any fun p => p.2.type == some "string" && p.2.format == some "binary"
    | none => false
  | none => false

/-- A normalized operation record, as produced by
`processOperationObject`: the raw fields plus the multipart flag, the
partitioned parameter groups, the response media object and the chosen
request media object, and the url/method pair. -/
structure ProcessedOperation where
  operationId : Option String
  summary : Option String
  description : Option String
  deprecated : Bool
  isMultipart : Bool
  pathParams : List ParameterObject
  queryParams : List ParameterObject
  responseData : Option MediaTypeObject
  requestBody : Option MediaTypeObject
  url : String
  method : String

/-- `processOperationObject` from the lazy-resolution `Parser`
(part_000), assembled from the pieces above.  `responseData` is
`values(responses["200"]?.content)?.[0]`. -/
def processOperationObject (refs : List String) (item : OperationObject)
    (url method : String) : ProcessedOperation :=
  let rb := requestBodyResolution refs item.requestBody
  let parameters := (processParametersObject refs item.parameters).getD []
  { operationId := item.operationId
    summary := item.summary
    description := item.description
    deprecated := item.deprecated
    isMultipart := rb.2
    pathParams := pathParamsOf parameters
    queryParams := queryParamsOf parameters
    responseData := ((item.responses.lookup "200").bind ResponseObject.content).bind
      fun c => (c.map Prod.snd).head?
    requestBody := rb.1
    url := url
    method := method }

/-- The fixed HTTP-method iteration order
(`Object.values(OpenAPIV3.HttpMethods)`). -/
def httpMethods : List String :=
  ["get", "put", "post", "delete", "options", "head", "patch", "trace"]

/-- A path item: its method-keyed operation entries. -/
abbrev PathItem := List (String × OperationObject)

/-- `getProcessedOperationObjects`: iterate path keys in declaration
order, within each path iterate the fixed method order, flatten, and
project every (url, method, operation) triple. -/
def getProcessedOperationObjects (refs : List String)
    (paths : List (String × PathItem)) : List ProcessedOperation :=
  (paths.flatMap fun p =>
    httpMethods.filterMap fun m => ((p.2).lookup m).map fun op => (p.1, m, op)).map
    fun t => processOperationObject refs t.2.2 t.1 t.2.1

/-- `_.upperFirst`: capitalize the first character. -/
def upperFirst (s : String) : String :=
  match s.toList with
  | [] => ""
  | c :: cs => String.mk (c.toUpper :: cs)

/-- A word character for the camel-case splitter. -/
def isWordChar (c : Char) : Bool :=
  c.isAlpha || c.isDigit

/-- Split a character list into words: maximal alphanumeric runs, also
split at a lower-to-upper case boundary.  `cur` holds the current word
reversed.  This models `_.words` on the ASCII identifier-like parameter
names the generator meets (the full lodash splitter additionally handles
Unicode and all-caps runs). -/
def wordsSplit : List Char → List Char → List (List Char)
  | [], cur => if cur.isEmpty then [] else [cur.reverse]
  | c :: rest, cur =>
    if isWordChar c then
      match cur with
      | p :: _ =>
        if p.isLower && c.isUpper then cur.reverse :: wordsSplit rest [c]
        else wordsSplit rest (c :: cur)
      | [] => wordsSplit rest [c]
    else
      if cur.isEmpty then wordsSplit rest []
      else cur.reverse :: wordsSplit rest []

/-- `_.camelCase`: lower-case every word, capitalize every word but the
first, and concatenate. -/
def camelCase (s : String) : String :=
  match (wordsSplit s.toList []).map fun w => String.mk (w.map Char.toLower) with
  | [] => ""
  | w :: ws => w ++ String.join (ws.map upperFirst)

/-- JavaScript `Array.prototype.join` on strings (an empty list joins to
the empty string). -/
def joinStr (sep : String) : List String → String
  | [] => ""
  | [x] => x
  | x :: y :: ys => x ++ sep ++ joinStr sep (y :: ys)

/-- The JavaScript truthiness of an optional string (`undefined` and the
empty string are falsy). -/
def strFalsy (o : Option String) : Bool :=
  o.isNone || o == some ""

mutual

/-- `processSchemaObject` from `src/render.ts` (part_002): re-title every
nested object/array schema from the interface-name path; on leaves,
rewrite `integer`/`int64` to `string` and fold the format into the
description. -/
def processSchemaObject : SchemaObject → String → SchemaObject
  | SchemaObject.mk type format title0 descr props reqd items, interfaceName =>
    let title :=
      if strFalsy title0 then title0
      else if interfaceName = "" then title0 else some interfaceName
    if type == some "array" then
      SchemaObject.mk type format title descr props reqd
        (match items with
         | some it => some (processSchemaObject it (interfaceName ++ "Item$"))
         | none => none)
    else if type == some "object" then
      SchemaObject.mk type format title descr
        (some
          (match props with
           | some ps => processSchemaProps ps interfaceName
           | none => []))
        reqd items
    else
      let type2 :=
        if type == some "integer" && format == some "int64" then some "string" else type
      SchemaObject.mk type2 format title
        (some ((joinStr "\n" [(descr.getD ""),
          (match format with
           | some f => "@format " ++ f
           | none => "")]).trim))
        props reqd items
termination_by s _ => sizeOf s
decreasing_by all_goals (simp_wf; try simp_arith)

/-- The `mapValues` over an object schema's properties inside
`processSchemaObject` (lodash maps an absent `properties` to an empty
map). -/
def processSchemaProps : List (String × SchemaObject) → String → List (String × SchemaObject)
  | [], _ => []
  | (k, v) :: rest, interfaceName =>
    (k, processSchemaObject v (interfaceName ++ "_" ++ upperFirst k)) ::
      processSchemaProps rest interfaceName
termination_by l _ => sizeOf l
decreasing_by all_goals (simp_wf; try simp_arith)

end

/-- `isSimplePathParams` from `preprocessOperation`:
`pathParams.length > 0 && pathParams.length < 3 && pathParams.every(el => el.required)`. -/
def isSimplePathParams (pathParams : List ParameterObject) : Bool :=
  decide (0 < pathParams.length) && decide (pathParams.length < 3) &&
    pathParams.all fun el => el.required

/-- The `path` member of the preprocessed parameter groups. -/
structure PathGroup where
  value : List ParameterObject
  isSimple : Bool

/-- The `query` member of the preprocessed parameter groups. -/
structure QueryGroup where
  value : List ParameterObject
  required : Bool

/-- The `data` member of the preprocessed operation shape. -/
structure DataGroup where
  value : MediaTypeObject
  isMultipart : Bool
  required : Bool

/-- The preprocessed operation shape handed to the synthesizer (the
`helperSchema` member is built separately through `processSchemaObject`). -/
structure OpShape where
  path : Option PathGroup
  query : Option QueryGroup
  data : Option DataGroup

/-- `preprocessOperation` from `src/render.ts`: presence checks, the
required-ness flags, and the simple-path-parameter decision. -/
def preprocessOperation (operation : ProcessedOperation) : OpShape :=
  let pathParams := operation.pathParams
  let queryParams := operation.queryParams
  let hasRequiredQuery := decide (queryParams.length > 0) && queryParams.any fun el => el.required
  let hasRequiredBody :=
    match (operation.requestBody.bind MediaTypeObject.schema).bind SchemaObject.required with
    | some l => decide (0 < l.length)
    | none => false
  { path :=
      if 0 < pathParams.length then
        some { value := pathParams, isSimple := isSimplePathParams pathParams }
      else none
    query :=
      if 0 < queryParams.length then
        some { value := queryParams, required := hasRequiredQuery }
      else none
    data :=
      match operation.requestBody with
      | some rb =>
        some { value := rb
               isMultipart := operation.isMultipart
               required := hasRequiredBody }
      | none => none }

/-- One named scalar argument of the simple-path-parameter call
signature (part_002): an `int64` parameter is annotated and typed
`string`; a non-`string`, non-`int64` parameter is typed `number`; a
non-required parameter is suffixed with an undefined alternative. -/
def simpleArgText (el : ParameterObject) : String :=
  let isI64 := (el.schema.bind SchemaObject.format) == some "int64"
  let realType :=
    if !((el.schema.bind SchemaObject.type) == some "string") && !isI64 then "number"
    else "string"
  (if isI64 then "/** @format int64 */" else "") ++ " " ++ el.name ++ ": " ++ realType ++
    (if !el.required then "| undefined" else "")

/-- The camel-cased path parameters of `renderOperation`
(`pathParams = op.params.path?.value.map(el => (\x7b ...el, name: camelCase(el.name) \x7d))`). -/
def renamedPathParams (path : Option PathGroup) : Option (List ParameterObject) :=
  path.map fun g => g.value.map fun el => { el with name := camelCase el.name }

/-- `simplePathArgs` from `renderOperation`: in simple mode, one
`simpleArgText` entry per camel-cased path parameter, comma-joined;
otherwise the empty string. -/
def simplePathArgs (sh : OpShape) : String :=
  match sh.path with
  | some g =>
    if g.isSimple then
      joinStr "," ((g.value.map fun el => { el with name := camelCase el.name }).map simpleArgText)
    else ""
  | none => ""

/-- The options argument of the generated builder: required exactly when
the query group or the data group is marked required. -/
def optionsArgText (sh : OpShape) : String :=
  if ((sh.query.map QueryGroup.required).getD false ||
      (sh.data.map DataGroup.required).getD false) then
    "__options: __Config"
  else "__options?: __Config"

/-- `fnArgs` from `renderOperation`: the simple named arguments, or a
single structured `pathParams` argument when path parameters exist but
are not simple, then the options argument; empty entries are dropped by
`.filter(Boolean)` before joining. -/
def fnArgs (sh : OpShape) : String :=
  joinStr ","
    (([(match sh.path with
        | some g =>
          if g.isSimple then simplePathArgs sh
          else "pathParams: __BaseTypes__[\"PathParams\"]"
        | none => ""),
       optionsArgText sh]).filter fun s => s ≠ "")

/-- Interpolation of a possibly-absent string into a JavaScript template
literal: `undefined` prints as the four-letter word `undefined`. -/
def jsTemplateStr (o : Option String) : String :=
  o.getD "undefined"

/-- The head of the per-operation factory emitted by `renderOperation`:
`function $\x7boperation.operationId!\x7d()`.  The non-null assertion
performs no runtime check, so an absent `operationId` is interpolated by
template-literal semantics.  The rest of the emitted block does not
depend on `operationId`. -/
def renderOperationHeader (operationId : Option String) : String :=
  "function " ++ jsTemplateStr operationId ++ "()"

/-- Whether a character may start a JavaScript identifier. -/
def isIdentStart (c : Char) : Bool :=
  c.isAlpha || c = '_' || c = '$'

/-- Whether a character may continue a JavaScript identifier. -/
def isIdentChar (c : Char) : Bool :=
  isIdentStart c || c.isDigit

/-- Whether a piece of text is a valid nonempty JavaScript identifier. -/
def isValidIdentText (s : String) : Bool :=
  match s.toList with
  | [] => false
  | c :: cs => isIdentStart c && cs.all isIdentChar

/-- Modelled from the spec: the external pretty-printer (sections 6 and
7) accepts the assembled module exactly when it is syntactically valid;
for the factory header the interpolated `operationId` text must be a
valid nonempty identifier (the only way the header can fail to parse). -/
def formatterAcceptsHeader (operationId : Option String) : Bool :=
  isValidIdentText (jsTemplateStr operationId)

/-- The caller-overridable primitive-format mapping
(`OpenAPITypeConversion` in `src/index.ts`); every group maps format
names to emitted type texts. -/
structure OpenAPITypeConversion where
  boolean : Option (List (String × String))
  number : Option (List (String × String))
  integer : Option (List (String × String))
  string : Option (List (String × String))

/-- `getIntType` from `renderTypeConversion`:
`(key, defaults = "number") => _.get(opt, ["integer", key], defaults)`. -/
def getIntType (opt : Option OpenAPITypeConversion) (key : String) (defaults : String) : String :=
  match opt with
  | none => defaults
  | some o =>
    match o.integer with
    | none => defaults
    | some m => (m.lookup key).getD defaults

/-- The `int64` entry of the emitted `$$Integer` table:
`renderTypeConversion` writes `getIntType("int64", "string")`, so the
built-in default for 64-bit integers is the string type. -/
def int64EmittedType (opt : Option OpenAPITypeConversion) : String :=
  getIntType opt "int64" "string"

/-- The stage-5 ordering of the per-operation code blocks: the source
builds a task list in extraction order and emits with
`while (tasks.length) code.push(await tasks.pop()())`, so blocks appear
in reversed extraction order — a pure function of the extracted list. -/
def moduleBlocksOrder (opBlocks : List String) : List String :=
  opBlocks.reverse

/-- The two-stage pipeline state transition of `swaggerToTypeScript` on
the document graph: stage 1 mutates the document in place through
`resolveCircular`, and every later stage reads the normalized document
without mutating it.  `emit` stands for the read-only remainder of the
pipeline (extraction, preprocessing, synthesis, assembly, and the
external compiler and formatter, all deterministic functions of the
normalized document).  The result pairs the output text with the
document state the caller retains. -/
def pipelineRun (emit : Heap → String) (fuel : Nat) (h : Heap) (root : Nat) :
    Option (String × Heap) :=
  (resolveCircular fuel h (JVal.vobj root) []).map fun h1 => (emit h1, h1)

/-- The default `int64` integer schema used by the examples. -/
def int64Schema : SchemaObject :=
  SchemaObject.mk (some "integer") (some "int64") none none none none none

/-- A plain string schema. -/
def strSchema : SchemaObject :=
  SchemaObject.mk (some "string") none none none none none none

/-- A required path parameter whose schema is a 64-bit integer. -/
def petIdParam : ParameterObject :=
  ⟨"pet_id", "path", true, some int64Schema⟩

/-- An operation with exactly one required path parameter. -/
def opSimpleExample : ProcessedOperation :=
  { operationId := some "getPet"
    summary := none
    description := none
    deprecated := false
    isMultipart := false
    pathParams := [petIdParam]
    queryParams := []
    responseData := none
    requestBody := none
    url := "/pets"
    method := "get" }

/-- An optional path parameter with a plain string schema, listed before
a required one, as a failing input for the required-first sort. -/
def filterParam : ParameterObject :=
  ⟨"filter", "path", false, some strSchema⟩

/-- The required sibling of `filterParam`. -/
def ownerParam : ParameterObject :=
  ⟨"owner", "path", true, some strSchema⟩

/-- A schema with a single binary-string property `file`. -/
def binaryPropSchema : SchemaObject :=
  SchemaObject.mk (some "object") none none none
    (some [("file", SchemaObject.mk (some "string") (some "binary") none none none none none)])
    none none

/-- A request-body content map declaring only `application/json`, whose
schema carries a binary-string property. -/
def jsonBinaryContent : List (String × MediaTypeObject) :=
  [("application/json", ⟨some binaryPropSchema⟩)]

/-- The identities bound in a heap, in binding order. -/
def Heap.ids (h : Heap) : List Nat :=
  h.objs.map Prod.fst

/-- Relation between a heap and a later state of it produced by the
walk: every already-bound identity stays bound, and every field under a
key other than `items` and `properties` keeps its value. -/
def heapPreserved (h h2 : Heap) : Prop :=
  (∀ id, id ∈ h.ids → id ∈ h2.ids) ∧
  (∀ id k, id ∈ h.ids → k ≠ "items" → k ≠ "properties" →
    h2.getField id k = h.getField id k)

/-- Heap well-formedness: every bound identity is below the allocation
counter, so fresh allocations never collide. -/
def Heap.wf (h : Heap) : Prop :=
  ∀ p ∈ h.objs, p.1 < h.next

/-- Bound check for one JavaScript value: object references must stay
below the given allocation counter. -/
def refBoundB (v : JVal) (n : Nat) : Bool :=
  match v with
  | JVal.vobj j => decide (j < n)
  | _ => true

/-- Reference well-formedness: every object reference stored in a field
is below the allocation counter. -/
def Heap.wfRefs (h : Heap) : Prop :=
  ∀ p ∈ h.objs, ∀ kv ∈ p.2, refBoundB kv.2 h.next = true

/-- Whether an object has at least one object-valued field. -/
def hasObjValue (h : Heap) (i : Nat) : Bool :=
  (h.fields i).any fun kv =>
    match kv.2 with
    | JVal.vobj _ => true
    | _ => false

/-- Whether an object has an object-valued field whose target itself has
an object-valued field — the objects whose subtrees can drive the walk
into further bookkeeping.  Marker leaves and marker maps are never deep. -/
def isDeep (h : Heap) (i : Nat) : Bool :=
  (h.fields i).any fun kv =>
    match kv.2 with
    | JVal.vobj j => hasObjValue h j
    | _ => false

/-- The termination measure of the walk: the number of deep objects not
on the visited set.  Every push of a deep object strictly shrinks it,
and the walk's rewrites never grow it. -/
def deepCount (h : Heap) (seen : List Nat) : Nat :=
  (h.ids.toFinset.filter fun i => isDeep h i = true ∧ i ∉ seen).card

/-- The side conditions the walk maintains: a well-formed heap with
bounded references, and a visited set of bounded identities that all
have an object-valued field. -/
def walkCond (h : Heap) (seen : List Nat) : Prop :=
  h.wf ∧ h.wfRefs ∧ (∀ s ∈ seen, s < h.next) ∧
    (∀ s ∈ seen, hasObjValue h s = true)

/-- The guarantees a completed walk call gives back: the measure did not
grow, the heap stays well-formed, allocation only moves forward, and
objects with an object-valued field keep one. -/
def walkPost (h h2 : Heap) (seen : List Nat) : Prop :=
  deepCount h2 seen ≤ deepCount h seen ∧ h2.wf ∧ h2.wfRefs ∧ h.next ≤ h2.next ∧
    (∀ s, s < h.next → hasObjValue h s = true → hasObjValue h2 s = true)

/-- Termination of the stage-1 walk on a document root: some fuel
completes the walk. -/
def terminatesOn (h : Heap) (v : JVal) : Prop :=
  ∃ fuel h2, resolveCircular fuel h v [] = some h2

/-- The heap produced by the `items` replacement branch of the walk:
allocate a marker leaf and point the field at it. -/
def itemsMutHeap (h : Heap) (i : Nat) (k : String) : Heap :=
  ((h.alloc markerFields).1).setField i k (JVal.vobj (h.alloc markerFields).2)

/-- The heap produced by the `properties` replacement branch of the
walk: allocate one marker per key of the re-entered map, allocate the
container, and point the field at the container. -/
def propsMutHeap (h : Heap) (i : Nat) (k : String) (vid : Nat) : Heap :=
  (((allocMarkers h (h.keysOf vid)).1).alloc (allocMarkers h (h.keysOf vid)).2).1.setField i k
    (JVal.vobj (((allocMarkers h (h.keysOf vid)).1).alloc (allocMarkers h (h.keysOf vid)).2).2)

/-- Structure of the objects the walk allocates, relative to the
allocation frontier `B` of the original document: every object at or
above `B` stores only primitive values or references to strictly
smaller objects that are themselves at or above `B`.  The original
document's objects (below `B`) are unconstrained. -/
def freshStruct (h : Heap) (B : Nat) : Prop :=
  ∀ z ∈ h.ids, B ≤ z → ∀ kv ∈ h.fields z,
    match kv.2 with
    | JVal.vobj t => B ≤ t ∧ t < z
    | _ => True

/-- Arithmetic relation between a call's object and its visited stack:
any stack entry at or above the frontier was allocated after the
object, so it is strictly larger.  This rules out re-entry detections
inside the walk's own marker subtrees. -/
def stackOk (B x : Nat) (seen : List Nat) : Prop :=
  ∀ s ∈ seen, B ≤ s → B ≤ x ∧ x < s

/-- The marker rewrites the walk can still perform after a given heap
state: replace the value under an `items` key by a fresh marker leaf,
or the value under a `properties` key by a fresh map of marker leaves,
always at an object of the original document (below the frontier
`B`).  Every suffix of a walk relates its start and end heap by this
relation. -/
inductive MExt (B : Nat) : Heap → Heap → Prop where
  | refl (h : Heap) : MExt B h h
  | items (h : Heap) (y t : Nat) (g : Heap) :
      h.getField y "items" = some (JVal.vobj t) → y < B →
      MExt B (itemsMutHeap h y "items") g → MExt B h g
  | props (h : Heap) (y t : Nat) (g : Heap) :
      h.getField y "properties" = some (JVal.vobj t) → y < B →
      MExt B (propsMutHeap h y "properties" t) g → MExt B h g

/-! ## Helper lemmas -/

theorem joinStr_comma_cons (x y : String) (ys : List String) :
    joinStr "," (x :: y :: ys) = x ++ "," ++ joinStr "," (y :: ys) := rfl

theorem joinStr_comma_append_single (xs : List String) (y : String) (h : xs ≠ []) :
    joinStr "," (xs ++ [y]) = joinStr "," xs ++ "," ++ y := by
  induction xs with
  | nil => exact absurd rfl h
  | cons x xs ih =>
    cases xs with
    | nil => rfl
    | cons z zs =>
      have ih' := ih (by simp)
      calc joinStr "," ((x :: z :: zs) ++ [y])
          = x ++ "," ++ joinStr "," ((z :: zs) ++ [y]) := rfl
        _ = x ++ "," ++ (joinStr "," (z :: zs) ++ "," ++ y) := by rw [ih']
        _ = joinStr "," (x :: z :: zs) ++ "," ++ y := by
            rw [joinStr_comma_cons]; simp [String.append_assoc]

theorem simpleArgText_ne_empty (el : ParameterObject) : simpleArgText el ≠ "" := by
  intro hcon
  have h := congrArg String.length hcon
  rw [simpleArgText] at h
  simp only [String.length_append] at h
  have hsp : (" ").length = 1 := rfl
  have hco : (": ").length = 2 := rfl
  have hni : ("" : String).length = 0 := rfl
  omega

theorem optionsArgText_ne_empty (sh : OpShape) : optionsArgText sh ≠ "" := by
  unfold optionsArgText
  split <;> decide

theorem joinStr_comma_cons_ne_empty (x : String) (xs : List String) (hx : x ≠ "") :
    joinStr "," (x :: xs) ≠ "" := by
  cases xs with
  | nil => simpa [joinStr]
  | cons z zs =>
    rw [joinStr_comma_cons]
    intro hcon
    have hl : (x ++ "," ++ joinStr "," (z :: zs)).length = 0 := by rw [hcon]; rfl
    rw [String.length_append, String.length_append] at hl
    have hc : (",").length = 1 := rfl
    omega

theorem requestBodyResolution_unfold (refs : List String)
    (content : List (String × MediaTypeObject)) :
    requestBodyResolution refs (some (OrRef.obj ⟨some content⟩)) =
      (if (content.lookup "multipart/form-data").isSome = true then
        (pickMediaObject content, true)
      else
        match (pickMediaObject content).bind MediaTypeObject.schema with
        | some schema =>
          match schema.properties with
          | some props =>
            (pickMediaObject content,
              props.any fun p => p.2.type == some "string" && p.2.format == some "binary")
          | none => (pickMediaObject content, false)
        | none => (pickMediaObject content, false)) := rfl

theorem requestBodyResolution_eq (refs : List String)
    (content : List (String × MediaTypeObject)) :
    requestBodyResolution refs (some (OrRef.obj ⟨some content⟩)) =
      (if (content.lookup "multipart/form-data").isSome then (pickMediaObject content, true)
       else (pickMediaObject content, chosenSchemaHasBinaryProp (pickMediaObject content))) := by
  rw [requestBodyResolution_unfold, chosenSchemaHasBinaryProp]
  by_cases hmp : (content.lookup "multipart/form-data").isSome
  · rw [if_pos hmp, if_pos hmp]
  · rw [if_neg hmp, if_neg hmp]
    rcases hsch : (pickMediaObject content).bind MediaTypeObject.schema with _ | sch
    · rfl
    · rcases hpr : sch.properties with _ | props
      · simp [hpr]
      · simp [hpr]

/-! ## The claims -/

/-- Claim C1, counterexample.  On the document `heapSelfLoop`, whose
node 1 re-enters itself under the key `self`, the walk completes, leaves
the heap entirely unchanged, and a cycle remains reachable from the
root by direct traversal — contradicting the claim that every cyclic
edge is replaced or removed. -/
theorem resolveCircular_leaves_reachable_cycle :
    resolveCircular 100 heapSelfLoop (JVal.vobj 0) [] = some heapSelfLoop ∧
    hasReachableCycle heapSelfLoop 0 = true := by
  exact ⟨by decide, by decide⟩

/-- Claim C2, counterexample.  On `heapSchemaLoop`, node 1 re-enters
itself under the key `schema`; the claim demands the value be collapsed
to an empty object, but after the walk the field still holds the very
same object, which still carries both of its fields. -/
theorem resolveCircular_no_empty_object_collapse :
    (resolveCircular 100 heapSchemaLoop (JVal.vobj 0) []).map
        (fun h => (h.getField 1 "schema", h.fields 1)) =
      some (some (JVal.vobj 1), [("schema", JVal.vobj 1), ("note", JVal.vstr "keeps fields")]) := by
  decide

/-- Claim C3, counterexample.  On `heapTwoCycle` the code walk and the
idealized walk of the spec (every object pushed before its children are
processed) terminate with observably different results: the code
replaces the `items` edge of node 2 (leaving node 3 intact), while the
claimed stack discipline replaces the `items` edge of node 3 (leaving
node 2 intact) — so the code does not implement the claimed discipline. -/
theorem resolveCircular_breaks_claimed_discipline :
    (resolveCircular 100 heapTwoCycle (JVal.vobj 0) []).map
        (fun h => (h.getField 2 "items", h.getField 3 "items")) =
      some (some (JVal.vobj 4), some (JVal.vobj 2)) ∧
    (specResolveCircular 100 heapTwoCycle 0).map
        (fun h => (h.getField 2 "items", h.getField 3 "items")) =
      some (some (JVal.vobj 3), some (JVal.vobj 4)) := by
  exact ⟨by decide, by decide⟩

/-- Claim C4: `isSimplePathParams` holds exactly for one or two path
parameters that are all required; in that case `fnArgs` renders one
camel-cased named scalar argument per path parameter (plus the options
argument), and otherwise — path parameters being present — it renders
the single structured `pathParams` argument typed by the PathParams
shape. -/
theorem isSimplePathParams_spec_and_signature (op : ProcessedOperation) :
    (isSimplePathParams op.pathParams = true ↔
      ((op.pathParams.length = 1 ∨ op.pathParams.length = 2) ∧
        ∀ p ∈ op.pathParams, p.required = true)) ∧
    (op.pathParams ≠ [] →
      (isSimplePathParams op.pathParams = true →
        fnArgs (preprocessOperation op) =
          joinStr ","
            ((op.pathParams.map fun el =>
                simpleArgText { el with name := camelCase el.name }) ++
              [optionsArgText (preprocessOperation op)])) ∧
      (isSimplePathParams op.pathParams = false →
        fnArgs (preprocessOperation op) =
          "pathParams: __BaseTypes__[\"PathParams\"]" ++ "," ++
            optionsArgText (preprocessOperation op))) := by
  constructor
  · simp only [isSimplePathParams, Bool.and_eq_true, decide_eq_true_eq, List.all_eq_true]
    constructor
    · rintro ⟨⟨h1, h2⟩, h3⟩
      exact ⟨by omega, h3⟩
    · rintro ⟨h12, h3⟩
      refine ⟨⟨by omega, by omega⟩, h3⟩
  · intro hne
    have hlen : 0 < op.pathParams.length := List.length_pos.mpr hne
    have hpath : (preprocessOperation op).path =
        some ⟨op.pathParams, isSimplePathParams op.pathParams⟩ := by
      simp [preprocessOperation, hlen]
    have hmapne : (op.pathParams.map fun el =>
        simpleArgText { el with name := camelCase el.name }) ≠ [] := by
      simpa using hne
    constructor
    · intro hsimple
      have hspa : simplePathArgs (preprocessOperation op) =
          joinStr ","
            (op.pathParams.map fun el =>
              simpleArgText { el with name := camelCase el.name }) := by
        rw [simplePathArgs, hpath]
        simp [hsimple, List.map_map, Function.comp_def]
      have hne2 : simplePathArgs (preprocessOperation op) ≠ "" := by
        rw [hspa]
        cases hp : op.pathParams with
        | nil => exact absurd hp hne
        | cons p ps =>
          simp only [List.map_cons]
          exact joinStr_comma_cons_ne_empty _ _ (simpleArgText_ne_empty _)
      rw [fnArgs, hpath]
      simp only [hsimple]
      rw [if_pos trivial]
      have hfil : List.filter (fun s => decide (s ≠ ""))
          [simplePathArgs (preprocessOperation op), optionsArgText (preprocessOperation op)] =
          [simplePathArgs (preprocessOperation op), optionsArgText (preprocessOperation op)] := by
        simp [List.filter_cons, hne2, optionsArgText_ne_empty]
      rw [hfil, joinStr_comma_append_single _ _ hmapne, hspa]
      rfl
    · intro hnot
      rw [fnArgs, hpath]
      simp only [hnot]
      rw [if_neg (by simp)]
      have hlit : ("pathParams: __BaseTypes__[\"PathParams\"]" : String) ≠ "" := by decide
      have hfil : List.filter (fun s => decide (s ≠ ""))
          ["pathParams: __BaseTypes__[\"PathParams\"]", optionsArgText (preprocessOperation op)] =
          ["pathParams: __BaseTypes__[\"PathParams\"]", optionsArgText (preprocessOperation op)] := by
        simp [List.filter_cons, hlit, optionsArgText_ne_empty]
      rw [hfil]
      rfl

/-- Witness for claim C4: the single required path parameter of
`opSimpleExample` puts the operation in simple mode and its builder
signature is the named scalar argument list. -/
theorem isSimplePathParams_spec_and_signature_witness :
    fnArgs (preprocessOperation opSimpleExample) =
      joinStr ","
        ((opSimpleExample.pathParams.map fun el =>
            simpleArgText { el with name := camelCase el.name }) ++
          [optionsArgText (preprocessOperation opSimpleExample)]) :=
  ((isSimplePathParams_spec_and_signature opSimpleExample).2 (List.cons_ne_nil _ _)).1 rfl

/-- Claim C5: with a request body present, the chosen media object is
the `application/json` entry when declared, else the
`multipart/form-data` entry, else the first content entry in iteration
order; and the multipart flag holds exactly when `multipart/form-data`
is declared or the chosen media schema has a binary-string property. -/
theorem requestBody_choice_and_multipart (refs : List String)
    (content : List (String × MediaTypeObject)) :
    ((∀ m, content.lookup "application/json" = some m →
        (requestBodyResolution refs (some (OrRef.obj ⟨some content⟩))).1 = some m) ∧
     (content.lookup "application/json" = none →
        (∀ m, content.lookup "multipart/form-data" = some m →
          (requestBodyResolution refs (some (OrRef.obj ⟨some content⟩))).1 = some m) ∧
        (content.lookup "multipart/form-data" = none →
          (requestBodyResolution refs (some (OrRef.obj ⟨some content⟩))).1 =
            (content.map Prod.snd).head?)) ∧
     ((requestBodyResolution refs (some (OrRef.obj ⟨some content⟩))).2 = true ↔
        ((content.lookup "multipart/form-data").isSome = true ∨
          chosenSchemaHasBinaryProp
            (requestBodyResolution refs (some (OrRef.obj ⟨some content⟩))).1 = true))) := by
  have hfst : (requestBodyResolution refs (some (OrRef.obj ⟨some content⟩))).1 =
      pickMediaObject content := by
    rw [requestBodyResolution_eq]; split <;> rfl
  refine ⟨?_, ?_, ?_⟩
  · intro m hm
    rw [hfst, pickMediaObject, hm]
  · intro hj
    constructor
    · intro m hm
      rw [hfst, pickMediaObject, hj, hm]
    · intro hm
      rw [hfst, pickMediaObject, hj, hm]
  · rw [hfst, requestBodyResolution_eq]
    split
    · rename_i hmp
      simp [hmp]
    · rename_i hmp
      simp [hmp]

/-- Witness for claim C5: a body declared only as `application/json`
whose schema has a `file` property of type `string`, format `binary`:
the json media object is chosen, and the operation is reclassified as
multipart although `multipart/form-data` was never declared. -/
theorem requestBody_choice_and_multipart_witness :
    (requestBodyResolution [] (some (OrRef.obj ⟨some jsonBinaryContent⟩))).1 =
        some ⟨some binaryPropSchema⟩ ∧
    (requestBodyResolution [] (some (OrRef.obj ⟨some jsonBinaryContent⟩))).2 = true ∧
    (jsonBinaryContent.lookup "multipart/form-data").isSome = false :=
  ⟨(requestBody_choice_and_multipart [] jsonBinaryContent).1 ⟨some binaryPropSchema⟩ rfl,
   ((requestBody_choice_and_multipart [] jsonBinaryContent).2.2).mpr (Or.inr (by decide)),
   by decide⟩

/-- Claim C6: under the default mapping (no caller overrides), `int64`
integers are emitted as the string type in both places — the emitted
type table entry of `renderTypeConversion`, the leaf-schema rewrite of
`processSchemaObject` feeding the helper schema, and the per-argument
type of a simple-mode path parameter. -/
theorem int64_emitted_as_string :
    int64EmittedType none = "string" ∧
    (∀ (t d : Option String) (ifc : String),
      (processSchemaObject
          (SchemaObject.mk (some "integer") (some "int64") t d none none none) ifc).type =
        some "string") ∧
    simpleArgText ⟨"petId", "path", true, some int64Schema⟩ =
      "/** @format int64 */ petId: string" ∧
    simpleArgText ⟨"petId", "path", true,
        some (SchemaObject.mk (some "integer") (some "int32") none none none none none)⟩ =
      " petId: number" :=
  ⟨rfl, fun t d ifc => by rw [processSchemaObject]; rfl, rfl, rfl⟩

/-- Claim C7: `resolveSimpleRef` returns `null` for every reference —
the source checks `refs.exists` and evaluates `refs.get` but discards
the result, then returns `null as never` — so even a parameter whose
reference resolves is silently dropped from the parameter list, while
inline parameters are kept. -/
theorem resolvable_param_ref_dropped :
    resolveSimpleRef (α := ParameterObject) ["#/components/parameters/PetId"]
        (OrRef.ref "#/components/parameters/PetId") = none ∧
    processParametersObject ["#/components/parameters/PetId"]
        (some [OrRef.ref "#/components/parameters/PetId"]) = some [] ∧
    (processParametersObject ["#/components/parameters/PetId"]
        (some [OrRef.obj ownerParam,
               OrRef.ref "#/components/parameters/PetId"])).map
        (List.map ParameterObject.name) = some ["owner"] :=
  ⟨rfl, rfl, rfl⟩

/-- Claim C8: the path-parameter sort comparator reads
`schema?.required`, which an ordinary parameter schema does not carry,
so the comparator is constantly 0 and the stable sort leaves the listed
order untouched: the optional `filter` parameter stays in front of the
required `owner` parameter, against the claimed required-first order. -/
theorem path_params_not_required_first :
    (pathParamsOf [filterParam, ownerParam]).map ParameterObject.name = ["filter", "owner"] ∧
    filterParam.required = false ∧ ownerParam.required = true ∧
    filterParam.loc = "path" ∧ ownerParam.loc = "path" ∧
    requiredSortNum filterParam.schema = 0 ∧ requiredSortNum ownerParam.schema = 0 :=
  ⟨rfl, rfl, rfl, rfl, rfl, rfl, rfl⟩

/-- Claim C9, counterexample.  An operation with a missing
`operationId` does not make the synthesizer fail: the template
interpolates the text `undefined` as the factory name, and the result
is a valid identifier the formatter accepts, so the run completes and a
module is produced. -/
theorem missing_operationId_not_fatal :
    renderOperationHeader none = "function undefined()" ∧
    formatterAcceptsHeader none = true :=
  ⟨rfl, rfl⟩

/-- Claim C9, amended: an operation with an **empty** `operationId`
produces the header of an anonymous function statement, which is not
syntactically valid and aborts the run at the formatter; a **missing**
`operationId` is interpolated as the literal text `undefined`, giving a
valid factory named `undefined`, and the run completes. -/
theorem operationId_empty_fails_missing_does_not (o : Option String) :
    (o = none →
      renderOperationHeader o = "function undefined()" ∧ formatterAcceptsHeader o = true) ∧
    (o = some "" →
      renderOperationHeader o = "function ()" ∧ formatterAcceptsHeader o = false) := by
  constructor
  · rintro rfl
    exact ⟨rfl, rfl⟩
  · rintro rfl
    exact ⟨rfl, rfl⟩

/-- Witness for the amended claim C9 at its two concrete inputs. -/
theorem operationId_empty_fails_missing_does_not_witness :
    formatterAcceptsHeader none = true ∧ formatterAcceptsHeader (some "") = false :=
  ⟨((operationId_empty_fails_missing_does_not none).1 rfl).2,
   ((operationId_empty_fails_missing_does_not (some "")).2 rfl).2⟩

theorem heapPreserved_refl (h : Heap) : heapPreserved h h :=
  ⟨fun _ hid => hid, fun _ _ _ _ _ => rfl⟩

theorem heapPreserved_trans {h h1 h2 : Heap} (a : heapPreserved h h1)
    (b : heapPreserved h1 h2) : heapPreserved h h2 :=
  ⟨fun id hid => b.1 id (a.1 id hid),
   fun id k hid hk1 hk2 => (b.2 id k (a.1 id hid) hk1 hk2).trans (a.2 id k hid hk1 hk2)⟩

theorem lookup_append_left {α β : Type} [BEq α] [LawfulBEq α] (l1 l2 : List (α × β)) (a : α)
    (ha : a ∈ l1.map Prod.fst) : (l1 ++ l2).lookup a = l1.lookup a := by
  induction l1 with
  | nil => simp at ha
  | cons x xs ih =>
    by_cases hax : a == x.1
    · simp [List.lookup, hax]
    · have ha' : a ∈ xs.map Prod.fst := by
        rw [List.map_cons, List.mem_cons] at ha
        rcases ha with ha | ha
        · exact absurd (by simp [ha]) hax
        · exact ha
      have hbeq : (a == x.1) = false := by simpa using hax
      simp only [List.cons_append, List.lookup, hbeq]
      exact ih ha'

theorem fields_alloc_mem (h : Heap) (fs : JFields) (id : Nat) (hid : id ∈ h.ids) :
    ((h.alloc fs).1).fields id = h.fields id := by
  unfold Heap.alloc Heap.fields
  simp only
  rw [lookup_append_left]
  exact hid

theorem ids_alloc (h : Heap) (fs : JFields) : ((h.alloc fs).1).ids = h.ids ++ [h.next] := by
  simp [Heap.alloc, Heap.ids]

theorem heapPreserved_alloc (h : Heap) (fs : JFields) : heapPreserved h (h.alloc fs).1 := by
  constructor
  · intro id hid
    rw [ids_alloc]
    exact List.mem_append_left _ hid
  · intro id k hid _ _
    unfold Heap.getField
    rw [fields_alloc_mem h fs id hid]

theorem setField_entry (a : Nat) (fs : JFields) (id0 : Nat) (k0 : String) (v : JVal) :
    (if ((a, fs) : Nat × JFields).1 = id0 then ((a, fs).1, setFieldIn (a, fs).2 k0 v)
      else (a, fs)) = if a = id0 then (a, setFieldIn fs k0 v) else (a, fs) := rfl

theorem lookup_cons_self {α β : Type} [BEq α] [LawfulBEq α] (a : α) (b : β)
    (l : List (α × β)) : List.lookup a ((a, b) :: l) = some b := by
  simp [List.lookup]

theorem lookup_cons_ne {α β : Type} [BEq α] (a c : α) (b : β) (l : List (α × β))
    (h : (a == c) = false) : List.lookup a ((c, b) :: l) = List.lookup a l := by
  simp [List.lookup, h]

theorem lookup_map_setField (l : List (Nat × JFields)) (id id0 : Nat) (k0 : String) (v : JVal) :
    List.lookup id (l.map fun o => if o.1 = id0 then (o.1, setFieldIn o.2 k0 v) else o) =
      if id = id0 then (List.lookup id l).map (fun fs => setFieldIn fs k0 v)
      else List.lookup id l := by
  induction l with
  | nil =>
    simp only [List.map_nil, List.lookup]
    split <;> rfl
  | cons x xs ih =>
    rcases x with ⟨a, fs⟩
    rw [List.map_cons, setField_entry]
    by_cases hid : id = a
    · subst hid
      by_cases ha : id = id0
      · rw [if_pos ha, lookup_cons_self, if_pos ha, lookup_cons_self]
        rfl
      · rw [if_neg ha, lookup_cons_self, if_neg ha, lookup_cons_self]
    · have hbeq : (id == a) = false := by simpa using hid
      by_cases ha : a = id0
      · rw [if_pos ha, lookup_cons_ne _ _ _ _ hbeq, ih, lookup_cons_ne _ _ _ _ hbeq]
      · rw [if_neg ha, lookup_cons_ne _ _ _ _ hbeq, ih, lookup_cons_ne _ _ _ _ hbeq]

theorem fields_setField (h : Heap) (id0 : Nat) (k0 : String) (v : JVal) (id : Nat) :
    (h.setField id0 k0 v).fields id =
      if id = id0 then setFieldIn (h.fields id) k0 v else h.fields id := by
  unfold Heap.setField Heap.fields
  simp only
  rw [lookup_map_setField]
  by_cases hid : id = id0
  · rw [if_pos hid, if_pos hid]
    cases List.lookup id h.objs with
    | none => rfl
    | some fs => rfl
  · rw [if_neg hid, if_neg hid]

theorem ids_setField (h : Heap) (id0 : Nat) (k0 : String) (v : JVal) :
    (h.setField id0 k0 v).ids = h.ids := by
  unfold Heap.setField Heap.ids
  simp only [List.map_map]
  apply List.map_congr_left
  intro o _
  by_cases ho : o.1 = id0
  · simp [Function.comp, ho]
  · simp [Function.comp, ho]

theorem setFieldIn_cons (x : String × JVal) (xs : JFields) (k0 : String) (v : JVal) :
    setFieldIn (x :: xs) k0 v =
      (if x.1 = k0 then (k0, v) else x) :: setFieldIn xs k0 v := rfl

theorem lookup_setFieldIn_ne (fs : JFields) (k0 : String) (v : JVal) (k : String)
    (hk : k ≠ k0) : (setFieldIn fs k0 v).lookup k = fs.lookup k := by
  induction fs with
  | nil => rfl
  | cons x xs ih =>
    rcases x with ⟨k1, v1⟩
    rw [setFieldIn_cons]
    by_cases h1 : k1 = k0
    · simp only [if_pos h1]
      have hbeq : (k == k0) = false := by simpa using hk
      have hbeq1 : (k == k1) = false := by
        rw [h1]; exact hbeq
      simp only [List.lookup, hbeq, hbeq1]
      exact ih
    · simp only [if_neg h1]
      by_cases hkk : k = k1
      · have hbeq : (k == k1) = true := by simpa using hkk
        simp only [List.lookup, hbeq]
      · have hbeq : (k == k1) = false := by simpa using hkk
        simp only [List.lookup, hbeq]
        exact ih

theorem getField_setField (h : Heap) (id0 : Nat) (k0 : String) (v : JVal) (id : Nat)
    (k : String) (hk : k ≠ k0) :
    (h.setField id0 k0 v).getField id k = h.getField id k := by
  unfold Heap.getField
  rw [fields_setField]
  by_cases hid : id = id0
  · rw [if_pos hid, lookup_setFieldIn_ne _ _ _ _ hk]
  · rw [if_neg hid]

theorem heapPreserved_setField_items (h : Heap) (id0 : Nat) (v : JVal) :
    heapPreserved h (h.setField id0 "items" v) := by
  constructor
  · intro id hid
    rw [ids_setField]
    exact hid
  · intro id k hid hk1 _
    exact getField_setField h id0 "items" v id k hk1

theorem heapPreserved_setField_properties (h : Heap) (id0 : Nat) (v : JVal) :
    heapPreserved h (h.setField id0 "properties" v) := by
  constructor
  · intro id hid
    rw [ids_setField]
    exact hid
  · intro id k hid _ hk2
    exact getField_setField h id0 "properties" v id k hk2

theorem heapPreserved_allocMarkers (h : Heap) (ks : List String) :
    heapPreserved h (allocMarkers h ks).1 := by
  induction ks generalizing h with
  | nil => exact heapPreserved_refl h
  | cons k ks ih =>
    have h1 := heapPreserved_alloc h markerFields
    have h2 := ih (h.alloc markerFields).1
    simp only [allocMarkers]
    exact heapPreserved_trans h1 h2

/-- Simultaneous preservation statement for the three mutually recursive
walk functions: a completed walk only grows the heap and only rewrites
`items` and `properties` fields. -/
theorem resolveCircular_heapPreserved (fuel : Nat) :
    (∀ h v seen h2, resolveCircular fuel h v seen = some h2 → heapPreserved h h2) ∧
    (∀ h id ks seen h2, resolveCircularFields fuel h id ks seen = some h2 →
      heapPreserved h h2) ∧
    (∀ h vid ks seen h2, resolveCircularKids fuel h vid ks seen = some h2 →
      heapPreserved h h2) := by
  induction fuel with
  | zero =>
    refine ⟨?_, ?_, ?_⟩
    · intro h v seen h2 hrun
      exact Option.noConfusion hrun
    · intro h id ks seen h2 hrun
      exact Option.noConfusion hrun
    · intro h vid ks seen h2 hrun
      exact Option.noConfusion hrun
  | succ f ih =>
    obtain ⟨ihv, ihf, ihk⟩ := ih
    refine ⟨?_, ?_, ?_⟩
    · intro h v seen h2 hrun
      cases v with
      | vobj id =>
        exact ihf h id (h.keysOf id) seen h2 hrun
      | vnull => exact (Option.some.inj hrun) ▸ heapPreserved_refl h
      | vbool b => exact (Option.some.inj hrun) ▸ heapPreserved_refl h
      | vnum n => exact (Option.some.inj hrun) ▸ heapPreserved_refl h
      | vstr s => exact (Option.some.inj hrun) ▸ heapPreserved_refl h
    · intro h id ks seen h2 hrun
      cases ks with
      | nil =>
        exact (Option.some.inj hrun) ▸ heapPreserved_refl h
      | cons k ks =>
        rw [resolveCircularFields] at hrun
        split at hrun
        · -- the field holds an object
          rename_i vid heq
          split at hrun
          · -- re-entered: replacement by key
            split at hrun
            · -- k = items
              rename_i hseen hki
              refine heapPreserved_trans ?_ (ihf _ _ _ _ _ hrun)
              exact heapPreserved_trans (heapPreserved_alloc h markerFields)
                (hki ▸ heapPreserved_setField_items _ id _)
            · split at hrun
              · -- k = properties
                rename_i hseen hki hkp
                refine heapPreserved_trans ?_ (ihf _ _ _ _ _ hrun)
                refine heapPreserved_trans (heapPreserved_allocMarkers h (h.keysOf vid)) ?_
                refine heapPreserved_trans
                  (heapPreserved_alloc (allocMarkers h (h.keysOf vid)).1
                    (allocMarkers h (h.keysOf vid)).2) ?_
                exact hkp ▸ heapPreserved_setField_properties _ id _
              · -- any other key: nothing written
                exact ihf _ _ _ _ _ hrun
          · -- not re-entered: push, walk the children, continue
            split at hrun
            · cases hrun
            · rename_i hseen h3 hkids
              exact heapPreserved_trans (ihk _ _ _ _ _ hkids) (ihf _ _ _ _ _ hrun)
        · -- the field is absent or holds a non-object
          exact ihf _ _ _ _ _ hrun
    · intro h vid ks seen h2 hrun
      cases ks with
      | nil =>
        exact (Option.some.inj hrun) ▸ heapPreserved_refl h
      | cons k ks =>
        rw [resolveCircularKids] at hrun
        split at hrun
        · -- the field exists: walk the value, continue
          split at hrun
          · cases hrun
          · rename_i v heq h3 hrc
            exact heapPreserved_trans (ihv _ _ _ _ hrc) (ihk _ _ _ _ _ hrun)
        · exact ihk _ _ _ _ _ hrun

theorem mem_ids_lt_next (h : Heap) (hwf : h.wf) (id : Nat) (hid : id ∈ h.ids) :
    id < h.next := by
  rcases List.mem_map.mp hid with ⟨p, hp, hfst⟩
  exact hfst ▸ hwf p hp

theorem wf_alloc (h : Heap) (fs : JFields) (hwf : h.wf) : ((h.alloc fs).1).wf := by
  intro p hp
  rw [Heap.alloc] at hp
  simp only at hp
  rw [List.mem_append] at hp
  rcases hp with hp | hp
  · exact Nat.lt_succ_of_lt (hwf p hp)
  · simp at hp
    simp [Heap.alloc, hp]

theorem lookup_not_mem_fst {α β : Type} [BEq α] [LawfulBEq α] (l : List (α × β)) (a : α)
    (ha : a ∉ l.map Prod.fst) : l.lookup a = none := by
  induction l with
  | nil => rfl
  | cons x xs ih =>
    rw [List.map_cons, List.mem_cons] at ha
    push_neg at ha
    have hbeq : (a == x.1) = false := by simpa using ha.1
    simp only [List.lookup, hbeq]
    exact ih ha.2

theorem fields_alloc_new (h : Heap) (fs : JFields) (hwf : h.wf) :
    ((h.alloc fs).1).fields h.next = fs := by
  unfold Heap.alloc Heap.fields
  simp only
  have hnm : h.next ∉ h.objs.map Prod.fst := by
    intro hcon
    exact absurd (mem_ids_lt_next h hwf h.next hcon) (Nat.lt_irrefl _)
  rw [List.lookup_append]
  rw [lookup_not_mem_fst _ _ hnm]
  simp [List.lookup]

theorem lookup_setFieldIn_eq (fs : JFields) (k0 : String) (v : JVal) :
    (setFieldIn fs k0 v).lookup k0 = (fs.lookup k0).map (fun _ => v) := by
  induction fs with
  | nil => rfl
  | cons x xs ih =>
    rcases x with ⟨k1, v1⟩
    rw [setFieldIn_cons]
    by_cases h1 : k1 = k0
    · subst h1
      have hh : (if ((k1, v1) : String × JVal).1 = k1 then (k1, v) else (k1, v1)) = (k1, v) :=
        if_pos rfl
      rw [hh]
      simp [List.lookup]
    · rw [if_neg h1]
      have hbeq : (k0 == k1) = false := by
        simp only [beq_eq_false_iff_ne]
        exact fun hcon => h1 hcon.symm
      simp only [List.lookup, hbeq]
      exact ih

theorem fields_allocMarkers_mem (h : Heap) (ks : List String) (id : Nat) (hid : id ∈ h.ids) :
    ((allocMarkers h ks).1).fields id = h.fields id := by
  induction ks generalizing h with
  | nil => rfl
  | cons k ks ih =>
    simp only [allocMarkers]
    have hid1 : id ∈ ((h.alloc markerFields).1).ids :=
      (heapPreserved_alloc h markerFields).1 id hid
    rw [ih (h.alloc markerFields).1 hid1]
    exact fields_alloc_mem h markerFields id hid

theorem next_allocMarkers_le (h : Heap) (ks : List String) :
    h.next ≤ ((allocMarkers h ks).1).next := by
  induction ks generalizing h with
  | nil => exact Nat.le_refl _
  | cons k ks ih =>
    simp only [allocMarkers]
    exact Nat.le_trans (Nat.le_succ _) (ih (h.alloc markerFields).1)

theorem wf_allocMarkers (h : Heap) (ks : List String) (hwf : h.wf) :
    ((allocMarkers h ks).1).wf := by
  induction ks generalizing h with
  | nil => exact hwf
  | cons k ks ih =>
    simp only [allocMarkers]
    exact ih (h.alloc markerFields).1 (wf_alloc h markerFields hwf)

theorem allocMarkers_fields_spec (h : Heap) (ks : List String) (hwf : h.wf) :
    ((allocMarkers h ks).2).map Prod.fst = ks ∧
    ∀ p ∈ (allocMarkers h ks).2, ∃ m, p.2 = JVal.vobj m ∧
      ((allocMarkers h ks).1).fields m = markerFields ∧
      h.next ≤ m ∧ m ∈ ((allocMarkers h ks).1).ids := by
  induction ks generalizing h with
  | nil => exact ⟨rfl, by intro p hp; cases hp⟩
  | cons k ks ih =>
    have hwf1 : ((h.alloc markerFields).1).wf := wf_alloc h markerFields hwf
    obtain ⟨ihfst, ihmem⟩ := ih (h.alloc markerFields).1 hwf1
    constructor
    · simp only [allocMarkers, List.map_cons]
      rw [ihfst]
    · intro p hp
      simp only [allocMarkers, List.mem_cons] at hp
      rcases hp with hp | hp
      · refine ⟨h.next, by simp [hp, Heap.alloc], ?_, Nat.le_refl _, ?_⟩
        · have hmm : h.next ∈ ((h.alloc markerFields).1).ids := by
            rw [ids_alloc]
            exact List.mem_append_right _ (List.mem_singleton.mpr rfl)
          simp only [allocMarkers]
          rw [fields_allocMarkers_mem (h.alloc markerFields).1 ks h.next hmm]
          exact fields_alloc_new h markerFields hwf
        · have hmm : h.next ∈ ((h.alloc markerFields).1).ids := by
            rw [ids_alloc]
            exact List.mem_append_right _ (List.mem_singleton.mpr rfl)
          simpa [allocMarkers] using
            (heapPreserved_allocMarkers (h.alloc markerFields).1 ks).1 h.next hmm
      · obtain ⟨m, hm1, hm2, hm3, hm4⟩ := ihmem p hp
        refine ⟨m, hm1, by simpa [allocMarkers] using hm2, ?_, ?_⟩
        · exact Nat.le_trans (Nat.le_succ _) hm3
        · simpa [allocMarkers] using hm4

/-- Claim C1, amended: the walk rewrites only `items` and `properties`
fields — every field of an already-bound object under any other key is
unchanged by a completed run, so a cyclic edge detected under another
key survives and the result need not be acyclic. -/
theorem resolveCircular_rewrites_only_items_properties (fuel : Nat) (h : Heap) (v : JVal)
    (seen : List Nat) (h2 : Heap) (hrun : resolveCircular fuel h v seen = some h2)
    (id : Nat) (k : String) (hid : id ∈ h.ids) (hk1 : k ≠ "items") (hk2 : k ≠ "properties") :
    h2.getField id k = h.getField id k :=
  ((resolveCircular_heapPreserved fuel).1 h v seen h2 hrun).2 id k hid hk1 hk2

/-- Witness for the amended claim C1: on the concrete run over
`heapTwoCycle`, the `k` field of node 1 is untouched. -/
theorem resolveCircular_rewrites_only_items_properties_witness :
    (resolveCircular 100 heapTwoCycle (JVal.vobj 0) []).map
        (fun h2 => h2.getField 1 "k") = some (heapTwoCycle.getField 1 "k") := by
  have hrun : resolveCircular 100 heapTwoCycle (JVal.vobj 0) [] =
      some { objs := [(0, [("x", JVal.vobj 1)]),
                      (1, [("k", JVal.vobj 2)]),
                      (2, [("items", JVal.vobj 4)]),
                      (3, [("items", JVal.vobj 2)]),
                      (4, markerFields)],
             next := 5 } := by decide
  rw [hrun]
  exact congrArg some
    (resolveCircular_rewrites_only_items_properties 100 heapTwoCycle (JVal.vobj 0) [] _
      hrun 1 "k" (by decide) (by decide) (by decide))

/-- Claim C2, amended: when the walk finds a field value already on the
visited set, the behaviour depends on the enclosing key — under `items`
the field is repointed at a fresh marker leaf; under `properties` the
field is repointed at a fresh map carrying the re-entered map's keys,
every one of whose values is a fresh marker leaf; under any other key
the heap is left exactly as it was (the collapse to an empty object
never happens); in every case the loop continues with the remaining
keys. -/
theorem resolveCircularFields_reentry_behavior (f : Nat) (h : Heap) (id : Nat) (k : String)
    (ks : List String) (seen : List Nat) (vid : Nat)
    (hget : h.getField id k = some (JVal.vobj vid)) (hseen : vid ∈ seen)
    (hwf : h.wf) (hid : id ∈ h.ids) :
    ∃ h1, resolveCircularFields (f + 1) h id (k :: ks) seen =
        resolveCircularFields f h1 id ks seen ∧
      (k ≠ "items" → k ≠ "properties" → h1 = h) ∧
      (k = "items" → h1.getField id k = some (JVal.vobj h.next) ∧
        h1.fields h.next = markerFields) ∧
      (k = "properties" →
        ∃ c, h1.getField id k = some (JVal.vobj c) ∧
          (h1.fields c).map Prod.fst = h.keysOf vid ∧
          ∀ p ∈ h1.fields c, ∃ m, p.2 = JVal.vobj m ∧ h1.fields m = markerFields) := by
  have hstep : resolveCircularFields (f + 1) h id (k :: ks) seen =
      (if k = "items" then
        resolveCircularFields f
          (((h.alloc markerFields).1).setField id k (JVal.vobj (h.alloc markerFields).2))
          id ks seen
      else if k = "properties" then
        resolveCircularFields f
          ((((allocMarkers h (h.keysOf vid)).1).alloc (allocMarkers h (h.keysOf vid)).2).1.setField
            id k
            (JVal.vobj
              (((allocMarkers h (h.keysOf vid)).1).alloc (allocMarkers h (h.keysOf vid)).2).2))
          id ks seen
      else resolveCircularFields f h id ks seen) := by
    rw [resolveCircularFields, hget]
    change (if vid ∈ seen then _ else _) = _
    rw [if_pos hseen]
  have hidlt : id < h.next := mem_ids_lt_next h hwf id hid
  by_cases hki : k = "items"
  · subst hki
    refine ⟨((h.alloc markerFields).1).setField id "items"
      (JVal.vobj (h.alloc markerFields).2), ?_, ?_, ?_, ?_⟩
    · rw [hstep, if_pos rfl]
    · intro hcon _
      exact absurd rfl hcon
    · intro _
      constructor
      · unfold Heap.getField
        rw [fields_setField, if_pos rfl, lookup_setFieldIn_eq]
        rw [fields_alloc_mem h markerFields id hid]
        unfold Heap.getField at hget
        rw [hget]
        rfl
      · rw [fields_setField]
        rw [if_neg (Nat.ne_of_lt hidlt).symm]
        exact fields_alloc_new h markerFields hwf
    · intro hcon
      exact absurd hcon (by decide)
  · by_cases hkp : k = "properties"
    · subst hkp
      have hwfM : ((allocMarkers h (h.keysOf vid)).1).wf :=
        wf_allocMarkers h (h.keysOf vid) hwf
      have hnextM : h.next ≤ ((allocMarkers h (h.keysOf vid)).1).next :=
        next_allocMarkers_le h (h.keysOf vid)
      obtain ⟨hfst, hmem⟩ := allocMarkers_fields_spec h (h.keysOf vid) hwf
      refine ⟨(((allocMarkers h (h.keysOf vid)).1).alloc
          (allocMarkers h (h.keysOf vid)).2).1.setField id "properties"
          (JVal.vobj
            (((allocMarkers h (h.keysOf vid)).1).alloc (allocMarkers h (h.keysOf vid)).2).2),
        ?_, ?_, ?_, ?_⟩
      · rw [hstep, if_neg (by decide), if_pos rfl]
      · intro _ hcon
        exact absurd rfl hcon
      · intro hcon
        exact absurd hcon (by decide)
      · intro _
        have hidM : id ∈ ((allocMarkers h (h.keysOf vid)).1).ids :=
          (heapPreserved_allocMarkers h (h.keysOf vid)).1 id hid
        have hcval : (((allocMarkers h (h.keysOf vid)).1).alloc
            (allocMarkers h (h.keysOf vid)).2).2 = ((allocMarkers h (h.keysOf vid)).1).next :=
          rfl
        refine ⟨((allocMarkers h (h.keysOf vid)).1).next, ?_, ?_, ?_⟩
        · unfold Heap.getField
          rw [fields_setField, if_pos rfl, lookup_setFieldIn_eq]
          rw [fields_alloc_mem ((allocMarkers h (h.keysOf vid)).1)
            (allocMarkers h (h.keysOf vid)).2 id hidM]
          rw [fields_allocMarkers_mem h (h.keysOf vid) id hid]
          unfold Heap.getField at hget
          rw [hget]
          rfl
        · rw [fields_setField]
          rw [if_neg (Nat.ne_of_lt (Nat.lt_of_lt_of_le hidlt hnextM)).symm]
          rw [fields_alloc_new ((allocMarkers h (h.keysOf vid)).1)
            (allocMarkers h (h.keysOf vid)).2 hwfM]
          exact hfst
        · intro p hp
          rw [fields_setField,
            if_neg (Nat.ne_of_lt (Nat.lt_of_lt_of_le hidlt hnextM)).symm,
            fields_alloc_new ((allocMarkers h (h.keysOf vid)).1)
              (allocMarkers h (h.keysOf vid)).2 hwfM] at hp
          obtain ⟨m, hm1, hm2, hm3, hm4⟩ := hmem p hp
          refine ⟨m, hm1, ?_⟩
          rw [fields_setField,
            if_neg (Nat.ne_of_lt (Nat.lt_of_lt_of_le hidlt hm3)).symm,
            fields_alloc_mem ((allocMarkers h (h.keysOf vid)).1)
              (allocMarkers h (h.keysOf vid)).2 m hm4]
          exact hm2
    · refine ⟨h, ?_, fun _ _ => rfl, fun hcon => absurd hcon hki,
        fun hcon => absurd hcon hkp⟩
      rw [hstep, if_neg hki, if_neg hkp]

/-- Witness for the amended claim C2: the heap `heapSchemaLoop` at the
detection of its `schema` self-edge, instantiating the other-key branch:
the continuation heap is the input heap itself. -/
theorem resolveCircularFields_reentry_behavior_witness :
    resolveCircularFields 10 heapSchemaLoop 1 ["schema"] [1] =
      resolveCircularFields 9 heapSchemaLoop 1 [] [1] := by
  obtain ⟨h1, hstep, hother, _, _⟩ :=
    resolveCircularFields_reentry_behavior 9 heapSchemaLoop 1 "schema" [] [1] 1
      (by decide) (by decide)
      (by decide : ∀ p ∈ heapSchemaLoop.objs, p.1 < heapSchemaLoop.next) (by decide)
  rw [hstep, hother (by decide) (by decide)]

/-- Completed walk results are stable under extra fuel. -/
theorem resolveCircular_fuelMono (fuel : Nat) :
    (∀ fuel2 h v seen h2, fuel ≤ fuel2 → resolveCircular fuel h v seen = some h2 →
      resolveCircular fuel2 h v seen = some h2) ∧
    (∀ fuel2 h id ks seen h2, fuel ≤ fuel2 →
      resolveCircularFields fuel h id ks seen = some h2 →
      resolveCircularFields fuel2 h id ks seen = some h2) ∧
    (∀ fuel2 h vid ks seen h2, fuel ≤ fuel2 →
      resolveCircularKids fuel h vid ks seen = some h2 →
      resolveCircularKids fuel2 h vid ks seen = some h2) := by
  induction fuel with
  | zero =>
    refine ⟨?_, ?_, ?_⟩
    · intro fuel2 h v seen h2 hle hrun
      exact Option.noConfusion hrun
    · intro fuel2 h id ks seen h2 hle hrun
      exact Option.noConfusion hrun
    · intro fuel2 h vid ks seen h2 hle hrun
      exact Option.noConfusion hrun
  | succ f ih =>
    obtain ⟨ihv, ihf, ihk⟩ := ih
    refine ⟨?_, ?_, ?_⟩
    · intro fuel2 h v seen h2 hle hrun
      cases fuel2 with
      | zero => exact absurd hle (by omega)
      | succ f2 =>
        have hle2 : f ≤ f2 := Nat.succ_le_succ_iff.mp hle
        cases v with
        | vobj id => exact ihf f2 h id (h.keysOf id) seen h2 hle2 hrun
        | vnull => exact hrun
        | vbool b => exact hrun
        | vnum n => exact hrun
        | vstr s => exact hrun
    · intro fuel2 h id ks seen h2 hle hrun
      cases fuel2 with
      | zero => exact absurd hle (by omega)
      | succ f2 =>
        have hle2 : f ≤ f2 := Nat.succ_le_succ_iff.mp hle
        cases ks with
        | nil => exact hrun
        | cons k ks =>
          rw [resolveCircularFields] at hrun
          split at hrun
          · rename_i vid heq
            rw [resolveCircularFields, heq]
            change (if vid ∈ seen then _ else _) = _
            by_cases hin : vid ∈ seen
            · rw [if_pos hin]
              rw [if_pos hin] at hrun
              by_cases hki : k = "items"
              · rw [if_pos hki] at hrun ⊢
                exact ihf f2 _ _ _ _ _ hle2 hrun
              · rw [if_neg hki] at hrun ⊢
                by_cases hkp : k = "properties"
                · rw [if_pos hkp] at hrun ⊢
                  exact ihf f2 _ _ _ _ _ hle2 hrun
                · rw [if_neg hkp] at hrun ⊢
                  exact ihf f2 _ _ _ _ _ hle2 hrun
            · rw [if_neg hin]
              rw [if_neg hin] at hrun
              rcases hkids : resolveCircularKids f h vid (h.keysOf vid) (vid :: seen) with
                _ | h3
              · rw [hkids] at hrun
                exact Option.noConfusion hrun
              · rw [hkids] at hrun
                rw [ihk f2 _ _ _ _ _ hle2 hkids]
                exact ihf f2 _ _ _ _ _ hle2 hrun
          · rename_i x hne
            rw [resolveCircularFields]
            split
            · rename_i vid heq2
              exact absurd heq2 (hne vid)
            · exact ihf f2 _ _ _ _ _ hle2 hrun
    · intro fuel2 h vid ks seen h2 hle hrun
      cases fuel2 with
      | zero => exact absurd hle (by omega)
      | succ f2 =>
        have hle2 : f ≤ f2 := Nat.succ_le_succ_iff.mp hle
        cases ks with
        | nil => exact hrun
        | cons k ks =>
          rw [resolveCircularKids] at hrun
          split at hrun
          · rename_i v heq
            rw [resolveCircularKids, heq]
            change (match resolveCircular f2 h v seen with
              | none => (none : Option Heap)
              | some h3 => resolveCircularKids f2 h3 vid ks seen) = some h2
            rcases hrc : resolveCircular f h v seen with _ | h3
            · rw [hrc] at hrun
              exact Option.noConfusion hrun
            · rw [hrc] at hrun
              rw [ihv f2 _ _ _ _ hle2 hrc]
              exact ihk f2 _ _ _ _ _ hle2 hrun
          · rename_i heq
            rw [resolveCircularKids, heq]
            exact ihk f2 _ _ _ _ _ hle2 hrun

theorem lookup_val_mem {α β : Type} [BEq α] (l : List (α × β)) (a : α) (b : β)
    (h : l.lookup a = some b) : ∃ x ∈ l, x.2 = b := by
  induction l with
  | nil => cases h
  | cons x xs ih =>
    rcases hx : (a == x.1) with _ | _
    · simp only [List.lookup, hx] at h
      obtain ⟨y, hy, hyb⟩ := ih h
      exact ⟨y, List.mem_cons_of_mem _ hy, hyb⟩
    · simp only [List.lookup, hx] at h
      exact ⟨x, List.mem_cons_self _ _, Option.some.inj h⟩

theorem lookup_pair_mem {α β : Type} [BEq α] [LawfulBEq α] (l : List (α × β)) (a : α) (b : β)
    (h : l.lookup a = some b) : (a, b) ∈ l := by
  induction l with
  | nil => cases h
  | cons x xs ih =>
    rcases hx : (a == x.1) with _ | _
    · simp only [List.lookup, hx] at h
      exact List.mem_cons_of_mem _ (ih h)
    · simp only [List.lookup, hx] at h
      have ha : a = x.1 := by simpa using hx
      have hb : b = x.2 := (Option.some.inj h).symm
      rw [ha, hb]
      exact List.mem_cons_self _ _

theorem fields_mem_objs (h : Heap) (i : Nat) (hne : h.fields i ≠ []) :
    (i, h.fields i) ∈ h.objs := by
  unfold Heap.fields at *
  rcases hl : h.objs.lookup i with _ | fs
  · rw [hl] at hne
    exact absurd rfl hne
  · exact lookup_pair_mem _ _ _ hl

theorem mem_fields_ids (h : Heap) (i : Nat) (hne : h.fields i ≠ []) : i ∈ h.ids :=
  List.mem_map.mpr ⟨(i, h.fields i), fields_mem_objs h i hne, rfl⟩

theorem mem_setFieldIn (fs : JFields) (k : String) (v : JVal) (kv : String × JVal)
    (hm : kv ∈ setFieldIn fs k v) : kv = (k, v) ∨ kv ∈ fs := by
  unfold setFieldIn at hm
  obtain ⟨kv0, hkv0, heq⟩ := List.mem_map.mp hm
  by_cases hk : kv0.1 = k
  · rw [if_pos hk] at heq
    exact Or.inl heq.symm
  · rw [if_neg hk] at heq
    exact Or.inr (heq ▸ hkv0)

theorem setFieldIn_obj_mem (fs : JFields) (k : String) (m : Nat) (kv : String × JVal)
    (hm : kv ∈ fs) : (if kv.1 = k then (k, JVal.vobj m) else kv) ∈ setFieldIn fs k (JVal.vobj m) := by
  unfold setFieldIn
  exact List.mem_map.mpr ⟨kv, hm, rfl⟩

theorem wf_setField (h : Heap) (i : Nat) (k : String) (v : JVal) (hwf : h.wf) :
    (h.setField i k v).wf := by
  intro p hp
  unfold Heap.setField at hp
  simp only at hp
  obtain ⟨p0, hp0, heq⟩ := List.mem_map.mp hp
  by_cases hi : p0.1 = i
  · rw [if_pos hi] at heq
    have := hwf p0 hp0
    rw [← heq]
    exact this
  · rw [if_neg hi] at heq
    exact heq ▸ hwf p0 hp0

theorem refBoundB_mono (v : JVal) (n n2 : Nat) (hle : n ≤ n2) (hb : refBoundB v n = true) :
    refBoundB v n2 = true := by
  cases v with
  | vobj j =>
    simp only [refBoundB, decide_eq_true_eq] at hb ⊢
    omega
  | vnull => rfl
  | vbool b => rfl
  | vnum m => rfl
  | vstr s => rfl

theorem wfRefs_alloc (h : Heap) (fs : JFields) (hrefs : h.wfRefs)
    (hfs : ∀ kv ∈ fs, refBoundB kv.2 (h.next + 1) = true) : ((h.alloc fs).1).wfRefs := by
  intro p hp kv hkv
  unfold Heap.alloc at hp
  simp only at hp
  rw [List.mem_append] at hp
  rcases hp with hp | hp
  · exact refBoundB_mono _ _ _ (Nat.le_succ _) (hrefs p hp kv hkv)
  · rw [List.mem_singleton] at hp
    subst hp
    exact hfs kv hkv

theorem wfRefs_setField (h : Heap) (i : Nat) (k : String) (v : JVal) (hrefs : h.wfRefs)
    (hv : refBoundB v h.next = true) : (h.setField i k v).wfRefs := by
  intro p hp kv hkv
  unfold Heap.setField at hp
  simp only at hp
  obtain ⟨p0, hp0, heq⟩ := List.mem_map.mp hp
  by_cases hi : p0.1 = i
  · rw [if_pos hi] at heq
    rw [← heq] at hkv
    simp only at hkv
    rcases mem_setFieldIn _ _ _ _ hkv with hkv2 | hkv2
    · rw [hkv2]
      exact hv
    · exact hrefs p0 hp0 kv hkv2
  · rw [if_neg hi] at heq
    exact hrefs p0 hp0 kv (heq ▸ hkv)

theorem fields_alloc_ne (h : Heap) (fs : JFields) (i : Nat) (hne : i ≠ h.next) :
    ((h.alloc fs).1).fields i = h.fields i := by
  unfold Heap.alloc Heap.fields
  simp only
  rw [List.lookup_append]
  rcases hl : h.objs.lookup i with _ | gs
  · simp only [Option.none_or]
    have hbeq : (i == h.next) = false := by simpa using hne
    simp [List.lookup, hbeq]
  · rfl

theorem hasObjValue_of_getField_obj (h : Heap) (i vid : Nat) (k : String)
    (hget : h.getField i k = some (JVal.vobj vid)) : hasObjValue h i = true := by
  unfold Heap.getField at hget
  obtain ⟨kv, hkv, hkv2⟩ := lookup_val_mem _ _ _ hget
  unfold hasObjValue
  rw [List.any_eq_true]
  exact ⟨kv, hkv, by rw [hkv2]⟩

theorem hasObjValue_congr (h h2 : Heap) (i : Nat) (hf : h2.fields i = h.fields i) :
    hasObjValue h2 i = hasObjValue h i := by
  unfold hasObjValue
  rw [hf]

theorem anyObj_setFieldIn (fs : JFields) (k : String) (m : Nat)
    (hfs : (fs.any fun kv =>
      match kv.2 with
      | JVal.vobj _ => true
      | _ => false) = true) :
    ((setFieldIn fs k (JVal.vobj m)).any fun kv =>
      match kv.2 with
      | JVal.vobj _ => true
      | _ => false) = true := by
  rw [List.any_eq_true] at hfs ⊢
  obtain ⟨kv, hkv, hobj⟩ := hfs
  refine ⟨if kv.1 = k then (k, JVal.vobj m) else kv, setFieldIn_obj_mem _ _ _ _ hkv, ?_⟩
  by_cases hk : kv.1 = k
  · rw [if_pos hk]
  · rw [if_neg hk]
    exact hobj

theorem getField_fields_ne_nil (h : Heap) (i : Nat) (k : String) (v : JVal)
    (hget : h.getField i k = some v) : h.fields i ≠ [] := by
  intro hcon
  unfold Heap.getField at hget
  rw [hcon] at hget
  cases hget

theorem refs_bound_of_mem (h : Heap) (z : Nat) (kv : String × JVal) (w : Nat)
    (hrefs : h.wfRefs) (hkv : kv ∈ h.fields z) (hw : kv.2 = JVal.vobj w) : w < h.next := by
  have hne : h.fields z ≠ [] := by
    intro hcon
    rw [hcon] at hkv
    cases hkv
  have hb := hrefs (z, h.fields z) (fields_mem_objs h z hne) kv hkv
  rw [hw] at hb
  simpa [refBoundB] using hb

theorem items_mut_facts (h : Heap) (i vid : Nat) (k : String) (hwf : h.wf)
    (hget : h.getField i k = some (JVal.vobj vid)) :
    (∀ z, z ≠ h.next → z ≠ i → (itemsMutHeap h i k).fields z = h.fields z) ∧
    (itemsMutHeap h i k).fields i = setFieldIn (h.fields i) k (JVal.vobj h.next) ∧
    (itemsMutHeap h i k).fields h.next = markerFields ∧
    (itemsMutHeap h i k).next = h.next + 1 := by
  have hilt : i < h.next :=
    mem_ids_lt_next h hwf i (mem_fields_ids h i (getField_fields_ne_nil h i k _ hget))
  have hine : i ≠ h.next := Nat.ne_of_lt hilt
  refine ⟨?_, ?_, ?_, rfl⟩
  · intro z hz1 hz2
    unfold itemsMutHeap
    rw [fields_setField, if_neg hz2, fields_alloc_ne h markerFields z hz1]
  · unfold itemsMutHeap
    rw [fields_setField, if_pos rfl, fields_alloc_mem h markerFields i
      (mem_fields_ids h i (getField_fields_ne_nil h i k _ hget))]
    rfl
  · unfold itemsMutHeap
    rw [fields_setField, if_neg (fun hcon => hine hcon.symm), fields_alloc_new h markerFields hwf]

theorem items_mut_walkPost (h : Heap) (i vid : Nat) (k : String) (seen : List Nat)
    (hwf : h.wf) (hrefs : h.wfRefs) (hget : h.getField i k = some (JVal.vobj vid)) :
    walkPost h (itemsMutHeap h i k) seen := by
  obtain ⟨hfz, hfi, hfm, hnext⟩ := items_mut_facts h i vid k hwf hget
  have hilt : i < h.next :=
    mem_ids_lt_next h hwf i (mem_fields_ids h i (getField_fields_ne_nil h i k _ hget))
  have hiobj : hasObjValue h i = true := hasObjValue_of_getField_obj h i vid k hget
  have hmnoobj : hasObjValue (itemsMutHeap h i k) h.next = false := by
    unfold hasObjValue
    rw [hfm]
    rfl
  have hiobj2 : hasObjValue (itemsMutHeap h i k) i = true := by
    unfold hasObjValue
    rw [hfi]
    exact anyObj_setFieldIn _ _ _ hiobj
  have hobjpres : ∀ s, s < h.next → hasObjValue h s = true →
      hasObjValue (itemsMutHeap h i k) s = true := by
    intro s hs hOb
    by_cases hsi : s = i
    · rw [hsi]; exact hiobj2
    · unfold hasObjValue
      rw [hfz s (Nat.ne_of_lt hs) hsi]
      exact hOb
  have hobjrev : ∀ w, w < h.next →
      hasObjValue (itemsMutHeap h i k) w = true → hasObjValue h w = true := by
    intro w hw hOb
    by_cases hwi : w = i
    · rw [hwi] at hOb ⊢; exact hiobj
    · unfold hasObjValue at hOb
      rw [hfz w (Nat.ne_of_lt hw) hwi] at hOb
      exact hOb
  have hdeepmono : ∀ z, z ∈ h.ids → isDeep (itemsMutHeap h i k) z = true →
      isDeep h z = true := by
    intro z hz hdeep
    have hzlt : z < h.next := mem_ids_lt_next h hwf z hz
    unfold isDeep at hdeep
    rw [List.any_eq_true] at hdeep
    obtain ⟨kv, hkv, hP⟩ := hdeep
    rcases hv : kv.2 with _ | _ | _ | _ | w
    all_goals rw [hv] at hP
    case vnull => cases hP
    case vbool => cases hP
    case vnum => cases hP
    case vstr => cases hP
    case vobj =>
    by_cases hzi : z = i
    · subst hzi
      rw [hfi] at hkv
      rcases mem_setFieldIn _ _ _ _ hkv with hkv2 | hkv2
      · rw [hkv2] at hv
        have hv2 : JVal.vobj h.next = JVal.vobj w := hv
        injection hv2 with hw2
        subst hw2
        have hP2 : hasObjValue (itemsMutHeap h z k) h.next = true := hP
        rw [hmnoobj] at hP2
        cases hP2
      · have hwlt : w < h.next := refs_bound_of_mem h z kv w hrefs hkv2 hv
        unfold isDeep
        rw [List.any_eq_true]
        exact ⟨kv, hkv2, by rw [hv]; exact hobjrev w hwlt hP⟩
    · rw [hfz z (Nat.ne_of_lt hzlt) hzi] at hkv
      have hwlt : w < h.next := refs_bound_of_mem h z kv w hrefs hkv hv
      unfold isDeep
      rw [List.any_eq_true]
      exact ⟨kv, hkv, by rw [hv]; exact hobjrev w hwlt hP⟩
  have hids : (itemsMutHeap h i k).ids = h.ids ++ [h.next] := by
    unfold itemsMutHeap
    rw [ids_setField, ids_alloc]
  have hcount : deepCount (itemsMutHeap h i k) seen ≤ deepCount h seen := by
    unfold deepCount
    apply Finset.card_le_card
    intro z hz
    rw [Finset.mem_filter] at hz ⊢
    obtain ⟨hz1, hz2, hz3⟩ := hz
    rw [List.mem_toFinset, hids, List.mem_append] at hz1
    rcases hz1 with hz1 | hz1
    · exact ⟨List.mem_toFinset.mpr hz1, hdeepmono z hz1 hz2, hz3⟩
    · rw [List.mem_singleton] at hz1
      subst hz1
      unfold isDeep at hz2
      rw [hfm] at hz2
      cases hz2
  refine ⟨hcount, ?_, ?_, by rw [hnext]; exact Nat.le_succ _, hobjpres⟩
  · exact wf_setField _ _ _ _ (wf_alloc h markerFields hwf)
  · unfold itemsMutHeap
    apply wfRefs_setField
    · apply wfRefs_alloc h markerFields hrefs
      intro kv hkv
      rw [markerFields, List.mem_singleton] at hkv
      subst hkv
      rfl
    · simp [refBoundB, Heap.alloc]

theorem rcFields_nil (f : Nat) (h : Heap) (id : Nat) (seen : List Nat) :
    resolveCircularFields (f + 1) h id [] seen = some h := rfl

theorem rcFields_cons_none (f : Nat) (h : Heap) (id : Nat) (k : String) (ks : List String)
    (seen : List Nat) (hget : h.getField id k = none) :
    resolveCircularFields (f + 1) h id (k :: ks) seen =
      resolveCircularFields f h id ks seen := by
  rw [resolveCircularFields, hget]

theorem rcFields_cons_prim (f : Nat) (h : Heap) (id : Nat) (k : String) (ks : List String)
    (seen : List Nat) (v : JVal) (hget : h.getField id k = some v)
    (hv : ∀ j, v ≠ JVal.vobj j) :
    resolveCircularFields (f + 1) h id (k :: ks) seen =
      resolveCircularFields f h id ks seen := by
  rw [resolveCircularFields, hget]
  cases v with
  | vobj j => exact absurd rfl (hv j)
  | vnull => rfl
  | vbool b => rfl
  | vnum n => rfl
  | vstr s => rfl

theorem rcFields_cons_obj (f : Nat) (h : Heap) (id : Nat) (k : String) (ks : List String)
    (seen : List Nat) (vid : Nat) (hget : h.getField id k = some (JVal.vobj vid)) :
    resolveCircularFields (f + 1) h id (k :: ks) seen =
      (if vid ∈ seen then
        (if k = "items" then resolveCircularFields f (itemsMutHeap h id k) id ks seen
         else if k = "properties" then
           resolveCircularFields f (propsMutHeap h id k vid) id ks seen
         else resolveCircularFields f h id ks seen)
      else
        match resolveCircularKids f h vid (h.keysOf vid) (vid :: seen) with
        | none => none
        | some h2 => resolveCircularFields f h2 id ks seen) := by
  rw [resolveCircularFields, hget]
  rfl

theorem rcKids_nil (f : Nat) (h : Heap) (vid : Nat) (seen : List Nat) :
    resolveCircularKids (f + 1) h vid [] seen = some h := rfl

theorem rcKids_cons_none (f : Nat) (h : Heap) (vid : Nat) (k : String) (ks : List String)
    (seen : List Nat) (hget : h.getField vid k = none) :
    resolveCircularKids (f + 1) h vid (k :: ks) seen =
      resolveCircularKids f h vid ks seen := by
  rw [resolveCircularKids, hget]

theorem rcKids_cons_some (f : Nat) (h : Heap) (vid : Nat) (k : String) (ks : List String)
    (seen : List Nat) (v : JVal) (hget : h.getField vid k = some v) :
    resolveCircularKids (f + 1) h vid (k :: ks) seen =
      (match resolveCircular f h v seen with
       | none => none
       | some h2 => resolveCircularKids f h2 vid ks seen) := by
  rw [resolveCircularKids, hget]

theorem rc_obj (f : Nat) (h : Heap) (id : Nat) (seen : List Nat) :
    resolveCircular (f + 1) h (JVal.vobj id) seen =
      resolveCircularFields f h id (h.keysOf id) seen := rfl

theorem rc_prim (f : Nat) (h : Heap) (v : JVal) (seen : List Nat)
    (hv : ∀ j, v ≠ JVal.vobj j) :
    resolveCircular (f + 1) h v seen = some h := by
  cases v with
  | vobj j => exact absurd rfl (hv j)
  | vnull => rfl
  | vbool b => rfl
  | vnum n => rfl
  | vstr s => rfl

theorem walkPost_refl (h : Heap) (seen : List Nat) (hwf : h.wf) (hrefs : h.wfRefs) :
    walkPost h h seen :=
  ⟨Nat.le_refl _, hwf, hrefs, Nat.le_refl _, fun _ _ hOb => hOb⟩

theorem walkPost_trans (h1 h2 h3 : Heap) (seen : List Nat)
    (p1 : walkPost h1 h2 seen) (p2 : walkPost h2 h3 seen) : walkPost h1 h3 seen :=
  ⟨Nat.le_trans p2.1 p1.1, p2.2.1, p2.2.2.1, Nat.le_trans p1.2.2.2.1 p2.2.2.2.1,
   fun s hs hOb => p2.2.2.2.2 s (Nat.lt_of_lt_of_le hs p1.2.2.2.1) (p1.2.2.2.2 s hs hOb)⟩

theorem walkCond_of_post (h h2 : Heap) (seen : List Nat)
    (hc : walkCond h seen) (p : walkPost h h2 seen) : walkCond h2 seen :=
  ⟨p.2.1, p.2.2.1, fun s hs => Nat.lt_of_lt_of_le (hc.2.2.1 s hs) p.2.2.2.1,
   fun s hs => p.2.2.2.2 s (hc.2.2.1 s hs) (hc.2.2.2 s hs)⟩

theorem deepCount_le_cons_succ (h : Heap) (v : Nat) (seen : List Nat) :
    deepCount h seen ≤ deepCount h (v :: seen) + 1 := by
  unfold deepCount
  have hsub : (h.ids.toFinset.filter fun i => isDeep h i = true ∧ i ∉ seen) ⊆
      (h.ids.toFinset.filter fun i => isDeep h i = true ∧ i ∉ v :: seen) ∪ {v} := by
    intro z hz
    rw [Finset.mem_filter] at hz
    rw [Finset.mem_union, Finset.mem_singleton]
    by_cases hzv : z = v
    · exact Or.inr hzv
    · refine Or.inl ?_
      rw [Finset.mem_filter]
      refine ⟨hz.1, hz.2.1, ?_⟩
      intro hcon
      rcases List.mem_cons.mp hcon with hcon | hcon
      · exact hzv hcon
      · exact hz.2.2 hcon
  refine Nat.le_trans (Finset.card_le_card hsub) ?_
  refine Nat.le_trans (Finset.card_union_le _ _) ?_
  simp

theorem deepCount_cons_lt (h : Heap) (v : Nat) (seen : List Nat) (hv : v ∈ h.ids)
    (hdeep : isDeep h v = true) (hns : v ∉ seen) :
    deepCount h (v :: seen) + 1 ≤ deepCount h seen := by
  unfold deepCount
  have hvnot : v ∉ (h.ids.toFinset.filter fun i => isDeep h i = true ∧ i ∉ v :: seen) := by
    intro hcon
    rw [Finset.mem_filter] at hcon
    exact hcon.2.2 (List.mem_cons_self v seen)
  have hsub : insert v (h.ids.toFinset.filter fun i => isDeep h i = true ∧ i ∉ v :: seen) ⊆
      (h.ids.toFinset.filter fun i => isDeep h i = true ∧ i ∉ seen) := by
    intro z hz
    rw [Finset.mem_insert] at hz
    rw [Finset.mem_filter]
    rcases hz with hz | hz
    · subst hz
      exact ⟨List.mem_toFinset.mpr hv, hdeep, hns⟩
    · rw [Finset.mem_filter] at hz
      refine ⟨hz.1, hz.2.1, fun hcon => hz.2.2 (List.mem_cons_of_mem v hcon)⟩
  have := Finset.card_le_card hsub
  rw [Finset.card_insert_of_not_mem hvnot] at this
  exact this

theorem rcFields_flat (h : Heap) (id : Nat) (ks : List String) (seen : List Nat)
    (hobj : hasObjValue h id = false) :
    resolveCircularFields (ks.length + 1) h id ks seen = some h := by
  induction ks with
  | nil => exact rcFields_nil 0 h id seen
  | cons k ks ih =>
    rw [List.length_cons]
    cases hg : h.getField id k with
    | none =>
      rw [rcFields_cons_none _ _ _ _ _ _ hg]
      exact ih
    | some v =>
      cases hv : v with
      | vobj j =>
        exfalso
        have hmem : (k, JVal.vobj j) ∈ h.fields id := by
          apply lookup_pair_mem
          rw [← hv]
          exact hg
        have hOb : hasObjValue h id = true := by
          unfold hasObjValue
          rw [List.any_eq_true]
          exact ⟨(k, JVal.vobj j), hmem, rfl⟩
        rw [hobj] at hOb
        cases hOb
      | vnull =>
        rw [rcFields_cons_prim _ _ _ _ _ _ _ hg (by rw [hv]; intro j hcon; cases hcon)]
        exact ih
      | vbool b =>
        rw [rcFields_cons_prim _ _ _ _ _ _ _ hg (by rw [hv]; intro j hcon; cases hcon)]
        exact ih
      | vnum n =>
        rw [rcFields_cons_prim _ _ _ _ _ _ _ hg (by rw [hv]; intro j hcon; cases hcon)]
        exact ih
      | vstr s =>
        rw [rcFields_cons_prim _ _ _ _ _ _ _ hg (by rw [hv]; intro j hcon; cases hcon)]
        exact ih

theorem rc_flat_obj (h : Heap) (j : Nat) (seen : List Nat)
    (hobj : hasObjValue h j = false) :
    resolveCircular ((h.keysOf j).length + 2) h (JVal.vobj j) seen = some h := by
  rw [rc_obj]
  exact rcFields_flat h j (h.keysOf j) seen hobj

theorem rcKids_shallow (h : Heap) (vid : Nat) (ks : List String) (seen : List Nat)
    (hdeep : isDeep h vid = false) :
    ∃ fuel, resolveCircularKids fuel h vid ks seen = some h := by
  induction ks with
  | nil => exact ⟨1, rfl⟩
  | cons k ks ih =>
    obtain ⟨f2, hf2⟩ := ih
    cases hg : h.getField vid k with
    | none =>
      refine ⟨f2 + 1, ?_⟩
      rw [rcKids_cons_none _ _ _ _ _ _ hg]
      exact hf2
    | some v =>
      have hchild : ∃ f1, resolveCircular f1 h v seen = some h := by
        cases hv : v with
        | vobj j =>
          have hOb : hasObjValue h j = false := by
            cases hOb2 : hasObjValue h j with
            | false => rfl
            | true =>
              exfalso
              have hmem : (k, JVal.vobj j) ∈ h.fields vid := by
                apply lookup_pair_mem
                rw [← hv]
                exact hg
              have : isDeep h vid = true := by
                unfold isDeep
                rw [List.any_eq_true]
                exact ⟨(k, JVal.vobj j), hmem, hOb2⟩
              rw [hdeep] at this
              cases this
          exact ⟨(h.keysOf j).length + 2, rc_flat_obj h j seen hOb⟩
        | vnull => exact ⟨1, rc_prim 0 h _ seen (fun j hcon => by cases hcon)⟩
        | vbool b => exact ⟨1, rc_prim 0 h _ seen (fun j hcon => by cases hcon)⟩
        | vnum n => exact ⟨1, rc_prim 0 h _ seen (fun j hcon => by cases hcon)⟩
        | vstr s => exact ⟨1, rc_prim 0 h _ seen (fun j hcon => by cases hcon)⟩
      obtain ⟨f1, hf1⟩ := hchild
      refine ⟨max f1 f2 + 1, ?_⟩
      rw [rcKids_cons_some _ _ _ _ _ _ _ hg]
      have h1 : resolveCircular (max f1 f2) h v seen = some h :=
        (resolveCircular_fuelMono f1).1 (max f1 f2) h v seen h (Nat.le_max_left f1 f2) hf1
      rw [h1]
      exact (resolveCircular_fuelMono f2).2.2 (max f1 f2) h vid ks seen h
        (Nat.le_max_right f1 f2) hf2

theorem fields_allocMarkers_lt (h : Heap) (ks : List String) (z : Nat) (hz : z < h.next) :
    ((allocMarkers h ks).1).fields z = h.fields z := by
  induction ks generalizing h with
  | nil => rfl
  | cons k ks ih =>
    simp only [allocMarkers]
    rw [ih (h.alloc markerFields).1 (Nat.lt_succ_of_lt hz)]
    exact fields_alloc_ne h markerFields z (Nat.ne_of_lt hz)

theorem mem_ids_allocMarkers (h : Heap) (ks : List String) (z : Nat) (hwf : h.wf)
    (hz : z ∈ ((allocMarkers h ks).1).ids) :
    z ∈ h.ids ∨ (((allocMarkers h ks).1).fields z = markerFields ∧ h.next ≤ z) := by
  induction ks generalizing h with
  | nil => exact Or.inl hz
  | cons k ks ih =>
    simp only [allocMarkers] at hz ⊢
    rcases ih (h.alloc markerFields).1 (wf_alloc h markerFields hwf) hz with hz2 | hz2
    · rw [ids_alloc, List.mem_append] at hz2
      rcases hz2 with hz2 | hz2
      · exact Or.inl hz2
      · rw [List.mem_singleton] at hz2
        subst hz2
        refine Or.inr ⟨?_, Nat.le_refl _⟩
        rw [fields_allocMarkers_lt (h.alloc markerFields).1 ks h.next (Nat.lt_succ_self _)]
        exact fields_alloc_new h markerFields hwf
    · exact Or.inr ⟨hz2.1, Nat.le_trans (Nat.le_succ _) hz2.2⟩

theorem wfRefs_allocMarkers (h : Heap) (ks : List String) (hrefs : h.wfRefs) :
    ((allocMarkers h ks).1).wfRefs := by
  induction ks generalizing h with
  | nil => exact hrefs
  | cons k ks ih =>
    simp only [allocMarkers]
    apply ih
    apply wfRefs_alloc h markerFields hrefs
    intro kv hkv
    rw [markerFields, List.mem_singleton] at hkv
    subst hkv
    rfl

theorem hasObjValue_of_isDeep (h : Heap) (i : Nat) (hdeep : isDeep h i = true) :
    hasObjValue h i = true := by
  unfold isDeep at hdeep
  rw [List.any_eq_true] at hdeep
  obtain ⟨kv, hkv, hP⟩ := hdeep
  unfold hasObjValue
  rw [List.any_eq_true]
  refine ⟨kv, hkv, ?_⟩
  cases hv : kv.2 with
  | vobj j => rfl
  | vnull => rw [hv] at hP; cases hP
  | vbool b => rw [hv] at hP; cases hP
  | vnum n => rw [hv] at hP; cases hP
  | vstr s => rw [hv] at hP; cases hP

theorem props_mut_facts (h : Heap) (i vid : Nat) (k : String) (hwf : h.wf)
    (hget : h.getField i k = some (JVal.vobj vid)) :
    (∀ z, z < h.next → z ≠ i → (propsMutHeap h i k vid).fields z = h.fields z) ∧
    (propsMutHeap h i k vid).fields i =
      setFieldIn (h.fields i) k (JVal.vobj ((allocMarkers h (h.keysOf vid)).1).next) ∧
    (propsMutHeap h i k vid).fields ((allocMarkers h (h.keysOf vid)).1).next =
      (allocMarkers h (h.keysOf vid)).2 ∧
    (propsMutHeap h i k vid).next = ((allocMarkers h (h.keysOf vid)).1).next + 1 ∧
    h.next ≤ ((allocMarkers h (h.keysOf vid)).1).next := by
  have hilt : i < h.next :=
    mem_ids_lt_next h hwf i (mem_fields_ids h i (getField_fields_ne_nil h i k _ hget))
  have hle : h.next ≤ ((allocMarkers h (h.keysOf vid)).1).next :=
    next_allocMarkers_le h (h.keysOf vid)
  have hic : i ≠ ((allocMarkers h (h.keysOf vid)).1).next :=
    Nat.ne_of_lt (Nat.lt_of_lt_of_le hilt hle)
  refine ⟨?_, ?_, ?_, rfl, hle⟩
  · intro z hz1 hz2
    unfold propsMutHeap
    rw [fields_setField, if_neg hz2,
      fields_alloc_ne _ _ z (Nat.ne_of_lt (Nat.lt_of_lt_of_le hz1 hle)),
      fields_allocMarkers_lt h _ z hz1]
  · unfold propsMutHeap
    rw [fields_setField, if_pos rfl, fields_alloc_ne _ _ i hic,
      fields_allocMarkers_lt h _ i hilt]
    rfl
  · unfold propsMutHeap
    rw [fields_setField, if_neg (fun hcon => hic hcon.symm)]
    exact fields_alloc_new _ _ (wf_allocMarkers h _ hwf)

theorem props_mut_walkPost (h : Heap) (i vid : Nat) (k : String) (seen : List Nat)
    (hwf : h.wf) (hrefs : h.wfRefs) (hget : h.getField i k = some (JVal.vobj vid))
    (hvobj : hasObjValue h vid = true) :
    walkPost h (propsMutHeap h i k vid) seen := by
  obtain ⟨hfz, hfi, hfc, hnext, hle⟩ := props_mut_facts h i vid k hwf hget
  have hilt : i < h.next :=
    mem_ids_lt_next h hwf i (mem_fields_ids h i (getField_fields_ne_nil h i k _ hget))
  have hiobj : hasObjValue h i = true := hasObjValue_of_getField_obj h i vid k hget
  have hkvmem : (k, JVal.vobj vid) ∈ h.fields i := lookup_pair_mem _ _ _ hget
  have hkeys : ∀ p ∈ (allocMarkers h (h.keysOf vid)).2, ∃ m, p.2 = JVal.vobj m ∧
      (propsMutHeap h i k vid).fields m = markerFields ∧ h.next ≤ m ∧
      m < ((allocMarkers h (h.keysOf vid)).1).next := by
    intro p hp
    obtain ⟨m, hm1, hm2, hm3, hm4⟩ := (allocMarkers_fields_spec h (h.keysOf vid) hwf).2 p hp
    have hmlt : m < ((allocMarkers h (h.keysOf vid)).1).next :=
      mem_ids_lt_next _ (wf_allocMarkers h _ hwf) m hm4
    refine ⟨m, hm1, ?_, hm3, hmlt⟩
    unfold propsMutHeap
    rw [fields_setField, if_neg (fun hcon => Nat.ne_of_lt (Nat.lt_of_lt_of_le hilt hm3) hcon.symm),
      fields_alloc_ne _ _ m (Nat.ne_of_lt hmlt)]
    exact hm2
  have hiobj2 : hasObjValue (propsMutHeap h i k vid) i = true := by
    unfold hasObjValue
    rw [hfi]
    exact anyObj_setFieldIn _ _ _ hiobj
  have hobjpres : ∀ s, s < h.next → hasObjValue h s = true →
      hasObjValue (propsMutHeap h i k vid) s = true := by
    intro s hs hOb
    by_cases hsi : s = i
    · rw [hsi]; exact hiobj2
    · unfold hasObjValue
      rw [hfz s hs hsi]
      exact hOb
  have hobjrev : ∀ w, w < h.next →
      hasObjValue (propsMutHeap h i k vid) w = true → hasObjValue h w = true := by
    intro w hw hOb
    by_cases hwi : w = i
    · rw [hwi] at hOb ⊢; exact hiobj
    · unfold hasObjValue at hOb
      rw [hfz w hw hwi] at hOb
      exact hOb
  have hdeepi : isDeep h i = true := by
    unfold isDeep
    rw [List.any_eq_true]
    exact ⟨(k, JVal.vobj vid), hkvmem, hvobj⟩
  have hdeepmono : ∀ z, z ∈ h.ids → isDeep (propsMutHeap h i k vid) z = true →
      isDeep h z = true := by
    intro z hz hdeep
    have hzlt : z < h.next := mem_ids_lt_next h hwf z hz
    unfold isDeep at hdeep
    rw [List.any_eq_true] at hdeep
    obtain ⟨kv, hkv, hP⟩ := hdeep
    rcases hv : kv.2 with _ | _ | _ | _ | w
    all_goals rw [hv] at hP
    case vnull => cases hP
    case vbool => cases hP
    case vnum => cases hP
    case vstr => cases hP
    case vobj =>
    by_cases hzi : z = i
    · subst hzi
      rw [hfi] at hkv
      rcases mem_setFieldIn _ _ _ _ hkv with hkv2 | hkv2
      · exact hdeepi
      · have hwlt : w < h.next := refs_bound_of_mem h z kv w hrefs hkv2 hv
        unfold isDeep
        rw [List.any_eq_true]
        exact ⟨kv, hkv2, by rw [hv]; exact hobjrev w hwlt hP⟩
    · rw [hfz z hzlt hzi] at hkv
      have hwlt : w < h.next := refs_bound_of_mem h z kv w hrefs hkv hv
      unfold isDeep
      rw [List.any_eq_true]
      exact ⟨kv, hkv, by rw [hv]; exact hobjrev w hwlt hP⟩
  have hids : (propsMutHeap h i k vid).ids =
      ((allocMarkers h (h.keysOf vid)).1).ids ++ [((allocMarkers h (h.keysOf vid)).1).next] := by
    unfold propsMutHeap
    rw [ids_setField, ids_alloc]
  have hcount : deepCount (propsMutHeap h i k vid) seen ≤ deepCount h seen := by
    unfold deepCount
    apply Finset.card_le_card
    intro z hz
    rw [Finset.mem_filter] at hz ⊢
    obtain ⟨hz1, hz2, hz3⟩ := hz
    rw [List.mem_toFinset, hids, List.mem_append] at hz1
    rcases hz1 with hz1 | hz1
    · rcases mem_ids_allocMarkers h _ z hwf hz1 with hz4 | hz4
      · exact ⟨List.mem_toFinset.mpr hz4, hdeepmono z hz4 hz2, hz3⟩
      · exfalso
        have hzne : z ≠ i := fun hcon =>
          Nat.ne_of_lt (Nat.lt_of_lt_of_le hilt hz4.2) hcon.symm
        have hzc : z < ((allocMarkers h (h.keysOf vid)).1).next :=
          mem_ids_lt_next _ (wf_allocMarkers h _ hwf) z hz1
        have hfzm : (propsMutHeap h i k vid).fields z = markerFields := by
          unfold propsMutHeap
          rw [fields_setField, if_neg hzne, fields_alloc_ne _ _ z (Nat.ne_of_lt hzc)]
          exact hz4.1
        unfold isDeep at hz2
        rw [hfzm] at hz2
        cases hz2
    · exfalso
      rw [List.mem_singleton] at hz1
      subst hz1
      unfold isDeep at hz2
      rw [hfc, List.any_eq_true] at hz2
      obtain ⟨p, hp, hP⟩ := hz2
      obtain ⟨m, hm1, hm2, hm3, hm4⟩ := hkeys p hp
      rw [hm1] at hP
      have hP2 : hasObjValue (propsMutHeap h i k vid) m = true := hP
      unfold hasObjValue at hP2
      rw [hm2] at hP2
      cases hP2
  refine ⟨hcount, ?_, ?_, Nat.le_trans hle (Nat.le_succ _), hobjpres⟩
  · unfold propsMutHeap
    exact wf_setField _ _ _ _ (wf_alloc _ _ (wf_allocMarkers h _ hwf))
  · unfold propsMutHeap
    apply wfRefs_setField
    · apply wfRefs_alloc _ _ (wfRefs_allocMarkers h _ hrefs)
      intro kv hkv
      obtain ⟨m, hm1, hm2, hm3, hm4⟩ := (allocMarkers_fields_spec h (h.keysOf vid) hwf).2 kv hkv
      rw [hm1]
      simp only [refBoundB, decide_eq_true_eq]
      exact Nat.lt_succ_of_lt (mem_ids_lt_next _ (wf_allocMarkers h _ hwf) m hm4)
    · simp [refBoundB, Heap.alloc]

theorem walk_term_all (n : Nat) :
    (∀ h seen id ks, walkCond h seen → deepCount h seen ≤ n →
      ∃ fuel h2, resolveCircularFields fuel h id ks seen = some h2 ∧ walkPost h h2 seen) ∧
    (∀ h seen v, walkCond h seen → deepCount h seen ≤ n →
      ∃ fuel h2, resolveCircular fuel h v seen = some h2 ∧ walkPost h h2 seen) ∧
    (∀ h seen vid ks, walkCond h seen → deepCount h seen ≤ n →
      ∃ fuel h2, resolveCircularKids fuel h vid ks seen = some h2 ∧ walkPost h h2 seen) := by
  induction n using Nat.strong_induction_on with
  | _ n IH =>
  have hA : ∀ h seen id ks, walkCond h seen → deepCount h seen ≤ n →
      ∃ fuel h2, resolveCircularFields fuel h id ks seen = some h2 ∧ walkPost h h2 seen := by
    intro h0 seen id ks
    induction ks generalizing h0 with
    | nil =>
      intro hc hcnt
      exact ⟨1, h0, rcFields_nil 0 h0 id seen, walkPost_refl h0 seen hc.1 hc.2.1⟩
    | cons k ks ihks =>
      intro hc hcnt
      cases hg : h0.getField id k with
      | none =>
        obtain ⟨f, h2, hrun, hpost⟩ := ihks h0 hc hcnt
        exact ⟨f + 1, h2, by rw [rcFields_cons_none _ _ _ _ _ _ hg]; exact hrun, hpost⟩
      | some v =>
        cases v with
        | vnull =>
          obtain ⟨f, h2, hrun, hpost⟩ := ihks h0 hc hcnt
          exact ⟨f + 1, h2,
            by rw [rcFields_cons_prim _ _ _ _ _ _ _ hg (by intro j hcon; cases hcon)]
               exact hrun, hpost⟩
        | vbool b =>
          obtain ⟨f, h2, hrun, hpost⟩ := ihks h0 hc hcnt
          exact ⟨f + 1, h2,
            by rw [rcFields_cons_prim _ _ _ _ _ _ _ hg (by intro j hcon; cases hcon)]
               exact hrun, hpost⟩
        | vnum m =>
          obtain ⟨f, h2, hrun, hpost⟩ := ihks h0 hc hcnt
          exact ⟨f + 1, h2,
            by rw [rcFields_cons_prim _ _ _ _ _ _ _ hg (by intro j hcon; cases hcon)]
               exact hrun, hpost⟩
        | vstr s =>
          obtain ⟨f, h2, hrun, hpost⟩ := ihks h0 hc hcnt
          exact ⟨f + 1, h2,
            by rw [rcFields_cons_prim _ _ _ _ _ _ _ hg (by intro j hcon; cases hcon)]
               exact hrun, hpost⟩
        | vobj vid =>
          by_cases hin : vid ∈ seen
          · by_cases hk1 : k = "items"
            · have hpost1 : walkPost h0 (itemsMutHeap h0 id k) seen :=
                items_mut_walkPost h0 id vid k seen hc.1 hc.2.1 hg
              have hc1 := walkCond_of_post _ _ _ hc hpost1
              have hcnt1 : deepCount (itemsMutHeap h0 id k) seen ≤ n :=
                Nat.le_trans hpost1.1 hcnt
              obtain ⟨f, h2, hrun, hpost2⟩ := ihks (itemsMutHeap h0 id k) hc1 hcnt1
              refine ⟨f + 1, h2, ?_, walkPost_trans _ _ _ _ hpost1 hpost2⟩
              rw [rcFields_cons_obj _ _ _ _ _ _ _ hg, if_pos hin, if_pos hk1]
              exact hrun
            · by_cases hk2 : k = "properties"
              · have hvobj : hasObjValue h0 vid = true := hc.2.2.2 vid hin
                have hpost1 : walkPost h0 (propsMutHeap h0 id k vid) seen :=
                  props_mut_walkPost h0 id vid k seen hc.1 hc.2.1 hg hvobj
                have hc1 := walkCond_of_post _ _ _ hc hpost1
                have hcnt1 : deepCount (propsMutHeap h0 id k vid) seen ≤ n :=
                  Nat.le_trans hpost1.1 hcnt
                obtain ⟨f, h2, hrun, hpost2⟩ := ihks (propsMutHeap h0 id k vid) hc1 hcnt1
                refine ⟨f + 1, h2, ?_, walkPost_trans _ _ _ _ hpost1 hpost2⟩
                rw [rcFields_cons_obj _ _ _ _ _ _ _ hg, if_pos hin, if_neg hk1, if_pos hk2]
                exact hrun
              · obtain ⟨f, h2, hrun, hpost⟩ := ihks h0 hc hcnt
                refine ⟨f + 1, h2, ?_, hpost⟩
                rw [rcFields_cons_obj _ _ _ _ _ _ _ hg, if_pos hin, if_neg hk1, if_neg hk2]
                exact hrun
          · cases hdeep : isDeep h0 vid with
            | false =>
              obtain ⟨fk, hkrun⟩ := rcKids_shallow h0 vid (h0.keysOf vid) (vid :: seen) hdeep
              obtain ⟨f, h2, hrun, hpost⟩ := ihks h0 hc hcnt
              refine ⟨max fk f + 1, h2, ?_, hpost⟩
              rw [rcFields_cons_obj _ _ _ _ _ _ _ hg, if_neg hin]
              have hkrun2 : resolveCircularKids (max fk f) h0 vid (h0.keysOf vid)
                  (vid :: seen) = some h0 :=
                (resolveCircular_fuelMono fk).2.2 (max fk f) h0 vid _ _ h0
                  (Nat.le_max_left fk f) hkrun
              rw [hkrun2]
              exact (resolveCircular_fuelMono f).2.1 (max fk f) h0 id ks seen h2
                (Nat.le_max_right fk f) hrun
            | true =>
              have hne : h0.fields vid ≠ [] := by
                intro hcon
                unfold isDeep at hdeep
                rw [hcon] at hdeep
                cases hdeep
              have hvid_ids : vid ∈ h0.ids := mem_fields_ids h0 vid hne
              have hvlt : vid < h0.next :=
                refs_bound_of_mem h0 id (k, JVal.vobj vid) vid hc.2.1
                  (lookup_pair_mem _ _ _ hg) rfl
              have hvobj : hasObjValue h0 vid = true := hasObjValue_of_isDeep _ _ hdeep
              have hc' : walkCond h0 (vid :: seen) := by
                refine ⟨hc.1, hc.2.1, ?_, ?_⟩
                · intro s hs
                  rcases List.mem_cons.mp hs with hs | hs
                  · rw [hs]; exact hvlt
                  · exact hc.2.2.1 s hs
                · intro s hs
                  rcases List.mem_cons.mp hs with hs | hs
                  · rw [hs]; exact hvobj
                  · exact hc.2.2.2 s hs
              have hlt : deepCount h0 (vid :: seen) + 1 ≤ deepCount h0 seen :=
                deepCount_cons_lt h0 vid seen hvid_ids hdeep hin
              have hm : deepCount h0 (vid :: seen) < n :=
                Nat.lt_of_lt_of_le (Nat.lt_of_succ_le hlt) hcnt
              obtain ⟨fk, hk2, hkrun, hkpost⟩ :=
                (IH (deepCount h0 (vid :: seen)) hm).2.2 h0 (vid :: seen) vid
                  (h0.keysOf vid) hc' (Nat.le_refl _)
              have hchain : deepCount hk2 seen ≤ deepCount h0 seen :=
                Nat.le_trans (deepCount_le_cons_succ hk2 vid seen)
                  (Nat.le_trans (Nat.succ_le_succ hkpost.1) hlt)
              have hkpostseen : walkPost h0 hk2 seen :=
                ⟨hchain, hkpost.2.1, hkpost.2.2.1, hkpost.2.2.2.1, hkpost.2.2.2.2⟩
              have hc2 : walkCond hk2 seen := walkCond_of_post _ _ _ hc hkpostseen
              have hcnt2 : deepCount hk2 seen ≤ n := Nat.le_trans hchain hcnt
              obtain ⟨f, h2, hrun, hpost⟩ := ihks hk2 hc2 hcnt2
              refine ⟨max fk f + 1, h2, ?_, walkPost_trans _ _ _ _ hkpostseen hpost⟩
              rw [rcFields_cons_obj _ _ _ _ _ _ _ hg, if_neg hin]
              have hkrun2 : resolveCircularKids (max fk f) h0 vid (h0.keysOf vid)
                  (vid :: seen) = some hk2 :=
                (resolveCircular_fuelMono fk).2.2 (max fk f) h0 vid _ _ hk2
                  (Nat.le_max_left fk f) hkrun
              rw [hkrun2]
              exact (resolveCircular_fuelMono f).2.1 (max fk f) hk2 id ks seen h2
                (Nat.le_max_right fk f) hrun
  have hC : ∀ h seen v, walkCond h seen → deepCount h seen ≤ n →
      ∃ fuel h2, resolveCircular fuel h v seen = some h2 ∧ walkPost h h2 seen := by
    intro h0 seen v hc hcnt
    cases v with
    | vobj id =>
      obtain ⟨f, h2, hrun, hpost⟩ := hA h0 seen id (h0.keysOf id) hc hcnt
      exact ⟨f + 1, h2, by rw [rc_obj]; exact hrun, hpost⟩
    | vnull =>
      exact ⟨1, h0, rc_prim 0 h0 _ seen (by intro j hcon; cases hcon),
        walkPost_refl h0 seen hc.1 hc.2.1⟩
    | vbool b =>
      exact ⟨1, h0, rc_prim 0 h0 _ seen (by intro j hcon; cases hcon),
        walkPost_refl h0 seen hc.1 hc.2.1⟩
    | vnum m =>
      exact ⟨1, h0, rc_prim 0 h0 _ seen (by intro j hcon; cases hcon),
        walkPost_refl h0 seen hc.1 hc.2.1⟩
    | vstr s =>
      exact ⟨1, h0, rc_prim 0 h0 _ seen (by intro j hcon; cases hcon),
        walkPost_refl h0 seen hc.1 hc.2.1⟩
  have hB : ∀ h seen vid ks, walkCond h seen → deepCount h seen ≤ n →
      ∃ fuel h2, resolveCircularKids fuel h vid ks seen = some h2 ∧ walkPost h h2 seen := by
    intro h0 seen vid ks
    induction ks generalizing h0 with
    | nil =>
      intro hc hcnt
      exact ⟨1, h0, rcKids_nil 0 h0 vid seen, walkPost_refl h0 seen hc.1 hc.2.1⟩
    | cons k ks ihks =>
      intro hc hcnt
      cases hg : h0.getField vid k with
      | none =>
        obtain ⟨f, h2, hrun, hpost⟩ := ihks h0 hc hcnt
        exact ⟨f + 1, h2, by rw [rcKids_cons_none _ _ _ _ _ _ hg]; exact hrun, hpost⟩
      | some v =>
        obtain ⟨f1, h1, hrun1, hpost1⟩ := hC h0 seen v hc hcnt
        have hc1 : walkCond h1 seen := walkCond_of_post _ _ _ hc hpost1
        have hcnt1 : deepCount h1 seen ≤ n := Nat.le_trans hpost1.1 hcnt
        obtain ⟨f2, h2, hrun2, hpost2⟩ := ihks h1 hc1 hcnt1
        refine ⟨max f1 f2 + 1, h2, ?_, walkPost_trans _ _ _ _ hpost1 hpost2⟩
        rw [rcKids_cons_some _ _ _ _ _ _ _ hg]
        have hrun1b : resolveCircular (max f1 f2) h0 v seen = some h1 :=
          (resolveCircular_fuelMono f1).1 (max f1 f2) h0 v seen h1
            (Nat.le_max_left f1 f2) hrun1
        rw [hrun1b]
        exact (resolveCircular_fuelMono f2).2.2 (max f1 f2) h1 vid ks seen h2
          (Nat.le_max_right f1 f2) hrun2
  exact ⟨hA, hC, hB⟩

/-- C3 (amended): the spec's claim that the walk pushes every traversed
object onto `seen` is false (see the counterexample theorem), but its
implicit consequence holds: the recursion of `resolveCircular` does
terminate.  On every well-formed heap — bounded identities and bounded
stored references, as produced by JSON parsing plus reference rewriting
— some finite fuel makes the embedded walk of `src/parse.ts` complete:
every push of a deep object strictly shrinks the count of deep
unvisited objects, and the marker rewrites never create deep objects. -/
theorem resolveCircular_terminates (h : Heap) (v : JVal)
    (hwf : h.wf) (hrefs : h.wfRefs) : terminatesOn h v := by
  have hc : walkCond h [] := by
    refine ⟨hwf, hrefs, ?_, ?_⟩
    · intro s hs; cases hs
    · intro s hs; cases hs
  obtain ⟨f, h2, hrun, -⟩ :=
    (walk_term_all (deepCount h [])).2.1 h [] v hc (Nat.le_refl _)
  exact ⟨f, h2, hrun⟩

/-- Witness for the amended termination theorem: the self-referential
schema heap is well-formed, and the walk on it terminates. -/
theorem resolveCircular_terminates_witness :
    heapSchemaLoop.wf ∧ heapSchemaLoop.wfRefs ∧
      terminatesOn heapSchemaLoop (JVal.vobj 0) := by
  have hwf : heapSchemaLoop.wf :=
    (by decide : ∀ p ∈ heapSchemaLoop.objs, p.1 < heapSchemaLoop.next)
  have hrefs : heapSchemaLoop.wfRefs :=
    (by decide :
      ∀ p ∈ heapSchemaLoop.objs, ∀ kv ∈ p.2, refBoundB kv.2 heapSchemaLoop.next = true)
  exact ⟨hwf, hrefs, resolveCircular_terminates heapSchemaLoop (JVal.vobj 0) hwf hrefs⟩
